import Mathlib

/-!
Verification development for the diffpy.srfit sources: the structure adapter
(`diffpy/srfit/structure/diffpystructure.py`) and the equation evaluation
engine described by the specification (the engine modules themselves --
`literals`, `visitors`, `builder`, `equationmod` -- are only documented by
`diffpy/srfit/equation/__init__.py`; they are modelled here from the
specification).

All machine integers and numeric values are modelled as `Int`/`Nat`;
fallible operations return `Except`/`Option`.
-/

namespace Srfit

/-! ### Decimal rendering

Model of Python's `"%i"` formatting of a non-negative integer, used by
`StructureParSet.__init__` to name atoms (`"%s%i" % (el, i)`).  Defined by
structural fuel recursion so that it evaluates by kernel reduction, together
with an injectivity proof. -/
/-- Little-endian decimal digits of `n`, with fuel (fuel `n` suffices). -/
def decAux : Nat → Nat → List Nat
  | 0, _ => []
  | _ + 1, 0 => []
  | f + 1, n + 1 => ((n + 1) % 10) :: decAux f ((n + 1) / 10)

/-- Value of a little-endian decimal digit list. -/
def fromDigits : List Nat → Nat
  | [] => 0
  | d :: ds => d + 10 * fromDigits ds

/-- Decimal rendering of a natural number, as Python's `"%i"` produces. -/
def decRepr (n : Nat) : String :=
  if n = 0 then "0" else String.mk (((decAux n n).reverse.map Nat.digitChar))

/-! ### Structure adapter (`diffpy/srfit/structure/diffpystructure.py`)

`AtomParSet.__init__` wraps a `diffpy.Structure.Atom`; numeric attribute
values are modelled as `Int` (their numeric type is irrelevant to the
aliasing and naming claims).  `ParameterWrapper` (an attribute
getter/setter pair) and `ParameterProxy` (a renamed view of an existing
parameter) are imported from `diffpy.srfit.fitbase.parameter`, which is not
among the sources; they are modelled from the spec: a wrapper reads/writes
one attribute of the adapted object, and a proxy delegates both operations
to its target parameter. -/
/-- The adapted `diffpy.Structure.Atom`: element symbol plus the numeric
attributes touched by `AtomParSet.__init__`. -/
structure DAtom where
  element : String
  xyz0 : Int := 0
  xyz1 : Int := 0
  xyz2 : Int := 0
  occupancy : Int := 0
  u11 : Int := 0
  u22 : Int := 0
  u33 : Int := 0
  u12 : Int := 0
  u13 : Int := 0
  u23 : Int := 0
  uisoequiv : Int := 0
  b11 : Int := 0
  b22 : Int := 0
  b33 : Int := 0
  b12 : Int := 0
  b13 : Int := 0
  b23 : Int := 0
  bisoequiv : Int := 0
deriving DecidableEq, Repr

instance : Inhabited DAtom := ⟨{ element := "" }⟩

/-- Modelled from the spec: `ParameterWrapper` — a named getter/setter pair
over the adapted atom (spec §6, "collaborator binding interface"). -/
structure PWrap where
  wname : String
  get : DAtom → Int
  set : DAtom → Int → DAtom

/-- Modelled from the spec: a managed parameter of `AtomParSet` is either a
`ParameterWrapper` or a `ParameterProxy` that renames an existing wrapper
and delegates its reads and writes to it. -/
inductive APar where
  | wrapper (w : PWrap)
  | proxy (pname : String) (target : PWrap)

def APar.name : APar → String
  | .wrapper w => w.wname
  | .proxy n _ => n

def APar.getv : APar → DAtom → Int
  | .wrapper w, a => w.get a
  | .proxy _ t, a => t.get a

def APar.setv : APar → DAtom → Int → DAtom
  | .wrapper w, a, v => w.set a v
  | .proxy _ t, a, v => t.set a v

/-- The parameter a proxy ultimately reads and writes. -/
def APar.underlying : APar → PWrap
  | .wrapper w => w
  | .proxy _ t => t

/-! Wrapper objects created by `AtomParSet.__init__`; the proxied ones are
named (as local variables in the source) so a proxy can share them. -/
def xPar : PWrap := ⟨"x", DAtom.xyz0, fun a v => { a with xyz0 := v }⟩

def yPar : PWrap := ⟨"y", DAtom.xyz1, fun a v => { a with xyz1 := v }⟩

def zPar : PWrap := ⟨"z", DAtom.xyz2, fun a v => { a with xyz2 := v }⟩

def occupancyPar : PWrap := ⟨"occupancy", DAtom.occupancy, fun a v => { a with occupancy := v }⟩

def U11Par : PWrap := ⟨"U11", DAtom.u11, fun a v => { a with u11 := v }⟩

def U22Par : PWrap := ⟨"U22", DAtom.u22, fun a v => { a with u22 := v }⟩

def U33Par : PWrap := ⟨"U33", DAtom.u33, fun a v => { a with u33 := v }⟩

def U12Par : PWrap := ⟨"U12", DAtom.u12, fun a v => { a with u12 := v }⟩

def U13Par : PWrap := ⟨"U13", DAtom.u13, fun a v => { a with u13 := v }⟩

def U23Par : PWrap := ⟨"U23", DAtom.u23, fun a v => { a with u23 := v }⟩

def UisoPar : PWrap := ⟨"Uiso", DAtom.uisoequiv, fun a v => { a with uisoequiv := v }⟩

def B11Par : PWrap := ⟨"B11", DAtom.b11, fun a v => { a with b11 := v }⟩

def B22Par : PWrap := ⟨"B22", DAtom.b22, fun a v => { a with b22 := v }⟩

def B33Par : PWrap := ⟨"B33", DAtom.b33, fun a v => { a with b33 := v }⟩

def B12Par : PWrap := ⟨"B12", DAtom.b12, fun a v => { a with b12 := v }⟩

def B13Par : PWrap := ⟨"B13", DAtom.b13, fun a v => { a with b13 := v }⟩

def B23Par : PWrap := ⟨"B23", DAtom.b23, fun a v => { a with b23 := v }⟩

def BisoPar : PWrap := ⟨"Biso", DAtom.bisoequiv, fun a v => { a with bisoequiv := v }⟩

/-- The managed parameters of an `AtomParSet`, in the exact `addParameter`
order of `AtomParSet.__init__`: x, y, z, occupancy, occ (proxy of
occupancy), U11, U22, U33, U12, U21 (proxy of U12), U13, U31 (proxy of
U13), U23, U32 (proxy of U23), Uiso, B11, B22, B33, B12, B21 (proxy of
B12), B13, B31 (proxy of B13), B23, B32 (proxy of B23), Biso. -/
def atomParSetPars : List APar :=
  [ .wrapper xPar, .wrapper yPar, .wrapper zPar,
    .wrapper occupancyPar, .proxy "occ" occupancyPar,
    .wrapper U11Par, .wrapper U22Par, .wrapper U33Par,
    .wrapper U12Par, .proxy "U21" U12Par,
    .wrapper U13Par, .proxy "U31" U13Par,
    .wrapper U23Par, .proxy "U32" U23Par,
    .wrapper UisoPar,
    .wrapper B11Par, .wrapper B22Par, .wrapper B33Par,
    .wrapper B12Par, .proxy "B21" B12Par,
    .wrapper B13Par, .proxy "B31" B13Par,
    .wrapper B23Par, .proxy "B32" B23Par,
    .wrapper BisoPar ]

def apsFind (name : String) : Option APar :=
  atomParSetPars.find? (fun p => p.name == name)

/-- Get the value of the managed parameter called `name` on atom `a`. -/
def apsGetValue (name : String) (a : DAtom) : Option Int :=
  (apsFind name).map (fun p => p.getv a)

/-- Set the value of the managed parameter called `name` on atom `a`. -/
def apsSetValue (name : String) (v : Int) (a : DAtom) : DAtom :=
  match apsFind name with
  | some p => p.setv a v
  | none => a

/-! ### `StructureParSet` (naming of the managed `AtomParSet`s) -/
/-- An `AtomParSet`: its `ParameterSet` name plus the adapted atom. -/
structure AtomParSetM where
  apname : String
  atom : DAtom
deriving DecidableEq, Repr

instance : Inhabited AtomParSetM := ⟨⟨"", default⟩⟩

/-- The naming loop of `StructureParSet.__init__`: for each atom, in
structure order, take `el = a.element`, `i = cdict.get(el, 0)`, name the
`AtomParSet` `"%s%i" % (el, i)` and set `cdict[el] = i + 1`. -/
def spsLoop : List DAtom → (String → Nat) → List AtomParSetM
  | [], _ => []
  | a :: rest, cd =>
    ⟨a.element ++ decRepr (cd a.element), a⟩ ::
      spsLoop rest (fun e => if e = a.element then cd a.element + 1 else cd e)

/-- `StructureParSet`: the adapted structure and the `atoms` list of
`AtomParSet`s built by `__init__`. -/
structure StructureParSetM where
  stru : List DAtom
  atoms : List AtomParSetM

/-- `StructureParSet.__init__` over the structure's atom list. -/
def StructureParSet.init (stru : List DAtom) : StructureParSetM :=
  ⟨stru, spsLoop stru (fun _ => 0)⟩

/-- `StructureParSet.getSpaceGroup`: the source returns the constant string
`"P 1"`. -/
def getSpaceGroup (_s : StructureParSetM) : String := "P 1"

/-- A bare atom of a given element (all numeric attributes zero). -/
def mkAtom (el : String) : DAtom := { element := el }

/-- A structure whose element symbols make `StructureParSet.__init__`
produce a name collision: element `A1` atom number 0 is named `A10`, and so
is the eleventh atom of element `A`. -/
def exStru : List DAtom := mkAtom "A1" :: List.replicate 11 (mkAtom "A")

/-! ### The equation evaluation engine

Modelled from the spec: the engine modules (`literals`, `visitors`,
`builder`, `equationmod`) are not among the sources — only the package
docstring `diffpy/srfit/equation/__init__.py` is.  The model follows spec
§§3–4 and §9: nodes live in an arena (`Graph.nodes`) indexed by `Nat`,
with an ownership edge list (`children`) and a notification edge list
(`observers`); children are created before their parents, so ownership
edges point to strictly smaller indices.  Values are modelled as `Int`
(spec: numeric scalar); a combining function may fail with a domain
error.  The mutable dirty/cached-value state is `EState`, separate from
the static graph.  Recursions are by structural fuel so that everything
evaluates by kernel reduction; `markDirty` is run with a fuel that is
provably sufficient, and `evaluate`/`denote` at node `i` use fuel `i + 1`,
sufficient because ownership edges decrease the index. -/
instance {ε α} [DecidableEq ε] [DecidableEq α] : DecidableEq (Except ε α) := fun
  | .ok a, .ok b =>
    if h : a = b then .isTrue (by rw [h]) else .isFalse (by intro hh; cases hh; exact h rfl)
  | .ok _, .error _ => .isFalse (by intro h; cases h)
  | .error _, .ok _ => .isFalse (by intro h; cases h)
  | .error a, .error b =>
    if h : a = b then .isTrue (by rw [h]) else .isFalse (by intro hh; cases hh; exact h rfl)

/-- Node values (spec: numeric scalar, modelled as `Int`). -/
abbrev Val := Int

/-- Modelled from the spec: a Literal node is a leaf `Argument` or an
internal `Operator` with a pure combining function that may raise a
domain error (spec §3). -/
inductive NodeKind where
  | arg : NodeKind
  | op (fn : List Val → Except String Val) : NodeKind

/-- Modelled from the spec: a Literal node — name, kind, ownership edges
(`children`, in argument order) and notification edges (`observers`). -/
structure Node where
  name : String
  kind : NodeKind
  children : List Nat
  observers : List Nat

instance : Inhabited Node := ⟨⟨"", .arg, [], []⟩⟩

/-- The arena of nodes (spec §9). -/
structure Graph where
  nodes : List Node

def Graph.size (g : Graph) : Nat := g.nodes.length

def Graph.node (g : Graph) (i : Nat) : Node := g.nodes.getD i default

def Graph.childrenOf (g : Graph) (i : Nat) : List Nat := (g.node i).children

def Graph.obsOf (g : Graph) (i : Nat) : List Nat := (g.node i).observers

def Graph.isArg (g : Graph) (i : Nat) : Bool :=
  match (g.node i).kind with
  | .arg => true
  | .op _ => false

/-- The mutable per-node state: cached value slot (which for an Argument
is its stored value) and validity flag (`true` = clean). -/
structure EState where
  value : List Val
  clean : List Bool

def EState.isClean (s : EState) (i : Nat) : Bool := s.clean.getD i false

def EState.val (s : EState) (i : Nat) : Val := s.value.getD i 0

def EState.setDirty (s : EState) (i : Nat) : EState :=
  { s with clean := s.clean.set i false }

def EState.writeCache (s : EState) (i : Nat) (v : Val) : EState :=
  ⟨s.value.set i v, s.clean.set i true⟩

/-- Well-formedness of the arena: ownership edges point to strictly
smaller indices (children are built before parents), Arguments are
childless, and the notification edges are exactly the reversed ownership
edges (constructing an Operator registers it as an observer of each of
its children, spec §4.1/§4.2). -/
def WF (g : Graph) : Prop :=
  (∀ i, i < g.size → ∀ c ∈ g.childrenOf i, c < i) ∧
  (∀ i, i < g.size → g.isArg i = true → g.childrenOf i = []) ∧
  (∀ i, i < g.size → ∀ j ∈ g.obsOf i, j < g.size ∧ i ∈ g.childrenOf j) ∧
  (∀ j, j < g.size → ∀ c ∈ g.childrenOf j, j ∈ g.obsOf c)

instance (g : Graph) : Decidable (WF g) :=
  inferInstanceAs (Decidable (_ ∧ _ ∧ _ ∧ _))

/-- The dynamic state covers the whole arena. -/
def Sized (g : Graph) (s : EState) : Prop :=
  s.value.length = g.size ∧ s.clean.length = g.size

instance (g : Graph) (s : EState) : Decidable (Sized g s) :=
  inferInstanceAs (Decidable (_ ∧ _))

/-! #### Change-propagation network (spec §4.2) -/
/-- Number of clean flags (the termination measure of dirty marking:
every propagation step either flips a clean flag or drops a worklist
entry). -/
def countClean (s : EState) : Nat := s.clean.count true

/-- Upper bound on the length of any observer list. -/
def maxObs (g : Graph) : Nat :=
  g.nodes.foldr (fun n m => max n.observers.length m) 0

/-- Worklist dirty-marking.  A worklist head that is already dirty is
skipped (the short-circuit of `markDirty`); a clean head is flipped to
dirty, recorded in the returned trace, and its observers are enqueued.
Fuel-structural; `markDirty` supplies provably sufficient fuel. -/
def mdAux (g : Graph) : Nat → List Nat → EState → EState × List Nat
  | 0, _, s => (s, [])
  | _ + 1, [], s => (s, [])
  | fuel + 1, i :: rest, s =>
    if s.isClean i then
      let r := mdAux g fuel (g.obsOf i ++ rest) (s.setDirty i)
      (r.1, i :: r.2)
    else mdAux g fuel rest s

/-- Sufficient fuel for `mdAux`: each flip enqueues at most `maxObs g`
new entries and at most `countClean s` flips can happen. -/
def mdFuel (g : Graph) (ws : List Nat) (s : EState) : Nat :=
  ws.length + countClean s * maxObs g

/-- `markDirty` on each node of the worklist: flips every clean node
reachable through observer edges (from clean nodes) to dirty, returning
the new state and the list of nodes flipped, in flip order.  No value is
read or written — propagation performs no evaluation. -/
def markDirty (g : Graph) (ws : List Nat) (s : EState) : EState × List Nat :=
  mdAux g (mdFuel g ws s) ws s

/-- `Argument.setValue` (spec §4.1): store the new value, then mark the
argument dirty and propagate to its observers transitively.  Returns the
new state and the list of nodes invalidated. -/
def setValue (g : Graph) (a : Nat) (v : Val) (s : EState) : EState × List Nat :=
  markDirty g [a] { s with value := s.value.set a v }

/-! #### Evaluator (spec §4.3) -/
/-- Evaluation errors: a combining function's domain error is wrapped as
an `EvaluationError` naming the failing node; `outOfFuel` is the fuel
artefact of the embedding (never produced with the fuel `evaluate`
supplies on a well-formed arena). -/
inductive EvalErr where
  | evaluationError (name : String) : EvalErr
  | outOfFuel : EvalErr
deriving DecidableEq, Repr

/-- Evaluate a list of children left to right with evaluator `f`,
threading the state and concatenating traces; the first error aborts the
walk (no further state changes). -/
def evalListWith (f : Nat → EState → Except EvalErr Val × EState × List Nat) :
    List Nat → EState → Except EvalErr (List Val) × EState × List Nat
  | [], s => (.ok [], s, [])
  | c :: cs, s =>
    match f c s with
    | (.error e, s', tr) => (.error e, s', tr)
    | (.ok v, s', tr) =>
      match evalListWith f cs s' with
      | (.error e, s'', tr') => (.error e, s'', tr ++ tr')
      | (.ok vs, s'', tr') => (.ok (v :: vs), s'', tr ++ tr')

/-- The Evaluator's post-order traversal (spec §4.3): a clean node
returns its cached value without descending; a dirty Argument returns its
stored value and is marked clean; a dirty Operator evaluates its children
in order, applies its combining function, caches the result and is marked
clean — unless the function raises, in which case an `EvaluationError`
naming the node propagates and the node's flag is left untouched.  The
returned trace lists the nodes recomputed, in completion order. -/
def evalF (g : Graph) : Nat → Nat → EState → Except EvalErr Val × EState × List Nat
  | 0, _, s => (.error .outOfFuel, s, [])
  | fuel + 1, i, s =>
    if s.isClean i then (.ok (s.val i), s, [])
    else
      match (g.node i).kind with
      | .arg => (.ok (s.val i), { s with clean := s.clean.set i true }, [i])
      | .op fn =>
        match evalListWith (evalF g fuel) (g.childrenOf i) s with
        | (.error e, s', tr) => (.error e, s', tr)
        | (.ok vs, s', tr) =>
          match fn vs with
          | .error _ => (.error (.evaluationError (g.node i).name), s', tr)
          | .ok v => (.ok v, s'.writeCache i v, tr ++ [i])

/-- One evaluation call on node `i`; on a well-formed arena fuel `i + 1`
is sufficient since ownership edges decrease the index. -/
def evaluate (g : Graph) (i : Nat) (s : EState) :
    Except EvalErr Val × EState × List Nat :=
  evalF g (i + 1) i s

/-- From-scratch denotation of the children list. -/
def denoteListWith (f : Nat → Except EvalErr Val) :
    List Nat → Except EvalErr (List Val)
  | [] => .ok []
  | c :: cs =>
    match f c with
    | .error e => .error e
    | .ok v =>
      match denoteListWith f cs with
      | .error e => .error e
      | .ok vs => .ok (v :: vs)

/-- From-scratch recomputation: ignores all flags and caches, reading
only the Arguments' stored values. -/
def denoteF (g : Graph) : Nat → Nat → EState → Except EvalErr Val
  | 0, _, _ => .error .outOfFuel
  | fuel + 1, i, s =>
    match (g.node i).kind with
    | .arg => .ok (s.val i)
    | .op fn =>
      match denoteListWith (fun c => denoteF g fuel c s) (g.childrenOf i) with
      | .error e => .error e
      | .ok vs =>
        match fn vs with
        | .error _ => .error (.evaluationError (g.node i).name)
        | .ok v => .ok v

/-- From-scratch value of node `i`. -/
def denote (g : Graph) (i : Nat) (s : EState) : Except EvalErr Val :=
  denoteF g (i + 1) i s

/-! #### State invariants -/
/-- Validity flags are downward closed: a clean node has clean children
(equivalently, dirtiness propagates upward — the invariant maintained by
the change-propagation network and the Evaluator). -/
def CleanDown (g : Graph) (s : EState) : Prop :=
  ∀ j, j < g.size → s.isClean j = true → ∀ c ∈ g.childrenOf j, s.isClean c = true

instance (g : Graph) (s : EState) : Decidable (CleanDown g s) :=
  inferInstanceAs (Decidable (∀ j, j < g.size → s.isClean j = true →
    ∀ c ∈ g.childrenOf j, s.isClean c = true))

/-- Cache coherence: a clean node's cached value is its from-scratch
value (spec §3: a cached value is only trustworthy when clean). -/
def Coherent (g : Graph) (s : EState) : Prop :=
  ∀ j, j < g.size → s.isClean j = true → denote g j s = .ok (s.val j)

instance (g : Graph) (s : EState) : Decidable (Coherent g s) :=
  inferInstanceAs (Decidable (∀ j, j < g.size → s.isClean j = true →
    denote g j s = .ok (s.val j)))

/-- Ownership reachability: `j` is `i` or a (transitive) child of `i`. -/
inductive Reaches (g : Graph) : Nat → Nat → Prop where
  | refl (i : Nat) : Reaches g i i
  | step {i c j : Nat} : c ∈ g.childrenOf i → Reaches g c j → Reaches g i j

/-- Strict ancestor relation through notification edges: `j` is an
ancestor of `i` (a node that transitively references `i`). -/
inductive ObsReach (g : Graph) : Nat → Nat → Prop where
  | base {i j : Nat} : j ∈ g.obsOf i → ObsReach g i j
  | step {i k j : Nat} : k ∈ g.obsOf i → ObsReach g k j → ObsReach g i j

/-- Successive elements of the list are joined by ownership edges. -/
def pathSteps (g : Graph) : List Nat → Bool
  | [] => true
  | [_] => true
  | x :: y :: rest => (g.childrenOf x).contains y && pathSteps g (y :: rest)

/-- A path along ownership edges from `r` down to `a`, listed from `r`. -/
def IsPath (g : Graph) (r : Nat) (p : List Nat) (a : Nat) : Prop :=
  p.head? = some r ∧ p.getLast? = some a ∧ pathSteps g p = true

instance (g : Graph) (r : Nat) (p : List Nat) (a : Nat) : Decidable (IsPath g r p a) :=
  inferInstanceAs (Decidable (_ ∧ _ ∧ _))

/-! #### Evaluator lemmas -/
/-- What any (partial) evaluation pass does to the state: lengths are kept;
exactly the traced nodes change, each from dirty to clean; the trace has no
duplicates; Argument values are never modified. -/
def StateOK (g : Graph) (s s' : EState) (tr : List Nat) : Prop :=
  s'.value.length = s.value.length ∧
  s'.clean.length = s.clean.length ∧
  (∀ j, j ∉ tr → s'.isClean j = s.isClean j ∧ s'.val j = s.val j) ∧
  (∀ j ∈ tr, s.isClean j = false ∧ s'.isClean j = true) ∧
  tr.Nodup ∧
  (∀ j, g.isArg j = true → s'.val j = s.val j)

/-! #### Equation Factory / Builder

Modelled from the spec (§4.5, §6): an infix expression over identifiers
`[A-Za-z_][A-Za-z0-9_]*`, integer literals, `+ - * / **`, unary minus,
parentheses and function calls `name(arg, ...)` is tokenized and parsed
into an `Expr` tree; identifiers are resolved against the factory's
registered operators and symbol table; function-call names are resolved
while the expression is compiled, before any tree is built or evaluated.
Numeric literals are modelled as integers (`Val` is `Int`). -/
inductive Token where
  | num (n : Int)
  | ident (s : String)
  | plus
  | minus
  | star
  | slash
  | dstar
  | lparen
  | rparen
  | comma
deriving DecidableEq, Repr

/-- Factory errors: `parseError` carries the offending position measured
as distance from the end of the input. -/
inductive FactoryErr where
  | parseError (pos : Nat)
  | unknownFunction (name : String)
  | arityError (name : String)
deriving DecidableEq, Repr

def takeNum : List Char → Nat → Nat × List Char
  | [], acc => (acc, [])
  | c :: cs, acc =>
    if c.isDigit then takeNum cs (acc * 10 + (c.toNat - '0'.toNat))
    else (acc, c :: cs)

def takeIdent : List Char → List Char × List Char
  | [] => ([], [])
  | c :: cs =>
    if c.isAlphanum || c = '_' then
      let r := takeIdent cs
      (c :: r.1, r.2)
    else ([], c :: cs)

def tokenize : Nat → List Char → Except FactoryErr (List Token)
  | 0, cs => .error (.parseError cs.length)
  | _ + 1, [] => .ok []
  | fuel + 1, c :: cs =>
    if c = ' ' then tokenize fuel cs
    else if c.isDigit then
      let r := takeNum (c :: cs) 0
      (tokenize fuel r.2).map (fun ts => .num (Int.ofNat r.1) :: ts)
    else if c.isAlpha || c = '_' then
      let r := takeIdent (c :: cs)
      (tokenize fuel r.2).map (fun ts => .ident (String.mk r.1) :: ts)
    else if c = '+' then (tokenize fuel cs).map (fun ts => .plus :: ts)
    else if c = '-' then (tokenize fuel cs).map (fun ts => .minus :: ts)
    else if c = '*' then
      match cs with
      | '*' :: cs' => (tokenize fuel cs').map (fun ts => .dstar :: ts)
      | _ => (tokenize fuel cs).map (fun ts => .star :: ts)
    else if c = '/' then (tokenize fuel cs).map (fun ts => .slash :: ts)
    else if c = '(' then (tokenize fuel cs).map (fun ts => .lparen :: ts)
    else if c = ')' then (tokenize fuel cs).map (fun ts => .rparen :: ts)
    else if c = ',' then (tokenize fuel cs).map (fun ts => .comma :: ts)
    else .error (.parseError (c :: cs).length)

inductive BinOp where
  | add
  | sub
  | mul
  | div
  | pow
deriving DecidableEq, Repr

mutual
inductive Expr where
  | num (n : Int)
  | var (s : String)
  | neg (e : Expr)
  | bin (o : BinOp) (a b : Expr)
  | call (f : String) (args : ExprList)
inductive ExprList where
  | nil
  | cons (e : Expr) (tl : ExprList)
end

mutual
def parseE : Nat → List Token → Except FactoryErr (Expr × List Token)
  | 0, ts => .error (.parseError ts.length)
  | fuel + 1, ts =>
    match parseT fuel ts with
    | .error e => .error e
    | .ok (a, ts₁) => parseERest fuel a ts₁
def parseERest : Nat → Expr → List Token → Except FactoryErr (Expr × List Token)
  | 0, _, ts => .error (.parseError ts.length)
  | fuel + 1, a, .plus :: ts₁ =>
    match parseT fuel ts₁ with
    | .error e => .error e
    | .ok (b, ts₂) => parseERest fuel (.bin .add a b) ts₂
  | fuel + 1, a, .minus :: ts₁ =>
    match parseT fuel ts₁ with
    | .error e => .error e
    | .ok (b, ts₂) => parseERest fuel (.bin .sub a b) ts₂
  | _ + 1, a, ts => .ok (a, ts)
def parseT : Nat → List Token → Except FactoryErr (Expr × List Token)
  | 0, ts => .error (.parseError ts.length)
  | fuel + 1, ts =>
    match parseF fuel ts with
    | .error e => .error e
    | .ok (a, ts₁) => parseTRest fuel a ts₁
def parseTRest : Nat → Expr → List Token → Except FactoryErr (Expr × List Token)
  | 0, _, ts => .error (.parseError ts.length)
  | fuel + 1, a, .star :: ts₁ =>
    match parseF fuel ts₁ with
    | .error e => .error e
    | .ok (b, ts₂) => parseTRest fuel (.bin .mul a b) ts₂
  | fuel + 1, a, .slash :: ts₁ =>
    match parseF fuel ts₁ with
    | .error e => .error e
    | .ok (b, ts₂) => parseTRest fuel (.bin .div a b) ts₂
  | _ + 1, a, ts => .ok (a, ts)
def parseF : Nat → List Token → Except FactoryErr (Expr × List Token)
  | 0, ts => .error (.parseError ts.length)
  | fuel + 1, .minus :: ts₁ =>
    match parseF fuel ts₁ with
    | .error e => .error e
    | .ok (e, ts₂) => .ok (.neg e, ts₂)
  | fuel + 1, ts => parseP fuel ts
def parseP : Nat → List Token → Except FactoryErr (Expr × List Token)
  | 0, ts => .error (.parseError ts.length)
  | fuel + 1, ts =>
    match parseA fuel ts with
    | .error e => .error e
    | .ok (a, .dstar :: ts₂) =>
      match parseF fuel ts₂ with
      | .error e => .error e
      | .ok (b, ts₃) => .ok (.bin .pow a b, ts₃)
    | .ok (a, ts₁) => .ok (a, ts₁)
def parseA : Nat → List Token → Except FactoryErr (Expr × List Token)
  | 0, ts => .error (.parseError ts.length)
  | _ + 1, .num n :: ts₁ => .ok (.num n, ts₁)
  | _ + 1, .ident f :: .lparen :: .rparen :: ts₂ => .ok (.call f .nil, ts₂)
  | fuel + 1, .ident f :: .lparen :: ts₁ =>
    match parseArgs fuel ts₁ with
    | .error e => .error e
    | .ok (args, .rparen :: ts₃) => .ok (.call f args, ts₃)
    | .ok (_, ts₂) => .error (.parseError ts₂.length)
  | _ + 1, .ident s :: ts₁ => .ok (.var s, ts₁)
  | fuel + 1, .lparen :: ts₁ =>
    match parseE fuel ts₁ with
    | .error e => .error e
    | .ok (e, .rparen :: ts₃) => .ok (e, ts₃)
    | .ok (_, ts₂) => .error (.parseError ts₂.length)
  | _ + 1, ts => .error (.parseError ts.length)
def parseArgs : Nat → List Token → Except FactoryErr (ExprList × List Token)
  | 0, ts => .error (.parseError ts.length)
  | fuel + 1, ts =>
    match parseE fuel ts with
    | .error e => .error e
    | .ok (e, .comma :: ts₂) =>
      match parseArgs fuel ts₂ with
      | .error err => .error err
      | .ok (args, ts₃) => .ok (.cons e args, ts₃)
    | .ok (e, ts₁) => .ok (.cons e .nil, ts₁)
end

/-- Parse a textual expression into an `Expr` (spec §4.5): tokenize, then
recursive descent with conventional precedence, left associativity, and
right-associative exponentiation. -/
def parseText (text : String) : Except FactoryErr Expr :=
  match tokenize (text.data.length + 1) text.data with
  | .error e => .error e
  | .ok ts =>
    match parseE ((ts.length + 1) * 8) ts with
    | .error e => .error e
    | .ok (e, []) => .ok e
    | .ok (_, ts') => .error (.parseError ts'.length)

/-- A registered combining function: optional fixed arity plus the pure
function. -/
structure OpSpec where
  arity : Option Nat
  fn : List Val → Except String Val

/-- The Equation Factory: the arena built so far, its dynamic state, the
symbol table of known Arguments, and the registry of named combining
functions. -/
structure Factory where
  graph : Graph
  st : EState
  symtable : List (String × Nat)
  ops : List (String × OpSpec)

def emptyFactory : Factory := ⟨⟨[]⟩, ⟨[], []⟩, [], []⟩

def lookupStr {α} : List (String × α) → String → Option α
  | [], _ => none
  | (k, x) :: rest, s => if k = s then some x else lookupStr rest s

def listModify {α} : List α → Nat → (α → α) → List α
  | [], _, _ => []
  | x :: xs, 0, f => f x :: xs
  | x :: xs, i + 1, f => x :: listModify xs i f

/-- Register `p` as an observer of its child `c` (spec §4.1 side effect). -/
def addObserver (g : Graph) (c p : Nat) : Graph :=
  ⟨listModify g.nodes c (fun nd => { nd with observers := nd.observers ++ [p] })⟩

/-- Append a fresh node to the arena, dirty, with the given stored value,
and register it as an observer of each of its children. -/
def Factory.newNode (fac : Factory) (name : String) (kind : NodeKind)
    (cs : List Nat) (v : Val) : Factory × Nat :=
  let idx := fac.graph.size
  let g₁ : Graph := ⟨fac.graph.nodes ++ [⟨name, kind, cs, []⟩]⟩
  let g₂ := cs.foldl (fun g c => addObserver g c idx) g₁
  ({ graph := g₂, st := ⟨fac.st.value ++ [v], fac.st.clean ++ [false]⟩,
     symtable := fac.symtable, ops := fac.ops }, idx)

inductive Resolution where
  | toOperator (name : String)
  | toArgument (id : Nat)
deriving DecidableEq, Repr

/-- Identifier resolution (spec §4.5): (1) a registered operator/function
name binds to that operator; (2) else a name in the symbol table reuses
that exact Argument; (3) else a fresh unbound Argument is created and
registered.  It never fails. -/
def resolveIdentifier (fac : Factory) (s : String) : Resolution × Factory :=
  match lookupStr fac.ops s with
  | some _ => (.toOperator s, fac)
  | none =>
    match lookupStr fac.symtable s with
    | some id => (.toArgument id, fac)
    | none =>
      let r := fac.newNode s .arg [] 0
      (.toArgument r.2, { r.1 with symtable := r.1.symtable ++ [(s, r.2)] })

def addFn : List Val → Except String Val
  | [a, b] => .ok (a + b)
  | _ => .error "wrong number of arguments"

def subFn : List Val → Except String Val
  | [a, b] => .ok (a - b)
  | _ => .error "wrong number of arguments"

def mulFn : List Val → Except String Val
  | [a, b] => .ok (a * b)
  | _ => .error "wrong number of arguments"

def divFn : List Val → Except String Val
  | [a, b] => if b = 0 then .error "division by zero" else .ok (a / b)
  | _ => .error "wrong number of arguments"

def powFn : List Val → Except String Val
  | [a, b] => if b < 0 then .error "negative exponent" else .ok (a ^ b.toNat)
  | _ => .error "wrong number of arguments"

def negFn : List Val → Except String Val
  | [a] => .ok (-a)
  | _ => .error "wrong number of arguments"

def binOpName : BinOp → String
  | .add => "addition"
  | .sub => "subtraction"
  | .mul => "multiplication"
  | .div => "division"
  | .pow => "power"

def binOpFn : BinOp → List Val → Except String Val
  | .add => addFn
  | .sub => subFn
  | .mul => mulFn
  | .div => divFn
  | .pow => powFn

mutual
/-- Build the Literal tree for an `Expr` (spec §4.5): literals become
fresh Arguments holding their value; identifiers go through
`resolveIdentifier`; infix operators and calls become Operator nodes
wired into the notification network, with fixed arities checked. -/
def buildExpr : Expr → Factory → Except FactoryErr (Nat × Factory)
  | .num n, fac =>
    let r := fac.newNode "" .arg [] n
    .ok (r.2, r.1)
  | .var s, fac =>
    match resolveIdentifier fac s with
    | (.toOperator nm, fac₁) =>
      match lookupStr fac₁.ops nm with
      | some spec =>
        let r := fac₁.newNode nm (.op spec.fn) [] 0
        .ok (r.2, r.1)
      | none => .error (.unknownFunction nm)
    | (.toArgument id, fac₁) => .ok (id, fac₁)
  | .neg e, fac =>
    match buildExpr e fac with
    | .error err => .error err
    | .ok (c, fac₁) =>
      let r := fac₁.newNode "negative" (.op negFn) [c] 0
      .ok (r.2, r.1)
  | .bin o a b, fac =>
    match buildExpr a fac with
    | .error err => .error err
    | .ok (ca, fac₁) =>
      match buildExpr b fac₁ with
      | .error err => .error err
      | .ok (cb, fac₂) =>
        let r := fac₂.newNode (binOpName o) (.op (binOpFn o)) [ca, cb] 0
        .ok (r.2, r.1)
  | .call f args, fac =>
    match lookupStr fac.ops f with
    | none => .error (.unknownFunction f)
    | some spec =>
      match buildArgs args fac with
      | .error err => .error err
      | .ok (cs, fac₁) =>
        match spec.arity with
        | some k =>
          if cs.length = k then
            let r := fac₁.newNode f (.op spec.fn) cs 0
            .ok (r.2, r.1)
          else .error (.arityError f)
        | none =>
          let r := fac₁.newNode f (.op spec.fn) cs 0
          .ok (r.2, r.1)
def buildArgs : ExprList → Factory → Except FactoryErr (List Nat × Factory)
  | .nil, fac => .ok ([], fac)
  | .cons e tl, fac =>
    match buildExpr e fac with
    | .error err => .error err
    | .ok (c, fac₁) =>
      match buildArgs tl fac₁ with
      | .error err => .error err
      | .ok (cs, fac₂) => .ok (c :: cs, fac₂)
end

mutual
/-- The names used in function-call position in an expression. -/
def callNamesE : Expr → List String
  | .num _ => []
  | .var _ => []
  | .neg e => callNamesE e
  | .bin _ a b => callNamesE a ++ callNamesE b
  | .call f args => f :: callNamesL args
def callNamesL : ExprList → List String
  | .nil => []
  | .cons e tl => callNamesE e ++ callNamesL tl
end

mutual
/-- The first function-call name not registered with the factory, if any
(the name-resolution scan the factory performs while compiling the
expression, before building or evaluating anything). -/
def firstUnknownE (fac : Factory) : Expr → Option String
  | .num _ => none
  | .var _ => none
  | .neg e => firstUnknownE fac e
  | .bin _ a b =>
    match firstUnknownE fac a with
    | some f => some f
    | none => firstUnknownE fac b
  | .call f args =>
    match lookupStr fac.ops f with
    | none => some f
    | some _ => firstUnknownL fac args
def firstUnknownL (fac : Factory) : ExprList → Option String
  | .nil => none
  | .cons e tl =>
    match firstUnknownE fac e with
    | some f => some f
    | none => firstUnknownL fac tl
end

/-- `EquationFactory.makeEquation`: compile a textual expression.  Parsing
and function-name resolution both happen here, at compile time; evaluation
is a separate, later operation on the built tree. -/
def makeEquation (fac : Factory) (text : String) : Except FactoryErr (Nat × Factory) :=
  match parseText text with
  | .error e => .error e
  | .ok ast =>
    match firstUnknownE fac ast with
    | some f => .error (.unknownFunction f)
    | none => buildExpr ast fac

/-- Bind a named Argument to a value through the facade: resolve the name
in the symbol table and call its `setValue` (dirty propagation included). -/
def bindVar (fac : Factory) (name : String) (v : Val) : Factory :=
  match lookupStr fac.symtable name with
  | some id => { fac with st := (setValue fac.graph id v fac.st).1 }
  | none => fac

/-- One evaluation call on the built tree's root through the facade. -/
def evalRoot (fac : Factory) (root : Nat) :
    Except EvalErr Val × Factory × List Nat :=
  ((evaluate fac.graph root fac.st).1,
   { fac with st := (evaluate fac.graph root fac.st).2.1 },
   (evaluate fac.graph root fac.st).2.2)

/-! #### Concrete graphs and equations used as test vectors -/
/-- A variadic summing operator function. -/
def sumFn : List Val → Except String Val
  | vs => .ok (vs.foldl (fun a b => a + b) 0)

/-- A diamond-shaped DAG: Argument 0 is shared by Operators 1 and 2, both
observed by Operator 3 — node 0 has two distinct ancestor paths from the
root 3. -/
def dg : Graph :=
  ⟨[⟨"x", .arg, [], [1, 2]⟩,
    ⟨"left", .op sumFn, [0], [3]⟩,
    ⟨"right", .op sumFn, [0], [3]⟩,
    ⟨"total", .op sumFn, [1, 2], []⟩]⟩

/-- A clean, coherent state for `dg` with `x = 1`. -/
def dsClean : EState := ⟨[1, 1, 1, 2], [true, true, true, true]⟩

/-- An all-dirty state for `dg` with `x = 1`. -/
def dsDirty : EState := ⟨[1, 0, 0, 0], [false, false, false, false]⟩

/-- A graph whose root divides `x` by `y`. -/
def dgDiv : Graph :=
  ⟨[⟨"x", .arg, [], [2]⟩,
    ⟨"y", .arg, [], [2]⟩,
    ⟨"quotient", .op divFn, [0, 1], []⟩]⟩

/-- An all-dirty state for `dgDiv` with `x = 1`, `y = 0` (division by
zero on evaluation). -/
def dsDiv : EState := ⟨[1, 0, 0], [false, false, false]⟩

/-- The equation built from the text `"2*x + y"`. -/
def eqC5 : Nat × Factory :=
  match makeEquation emptyFactory "2*x + y" with
  | .ok r => r
  | .error _ => (0, emptyFactory)

/-- `eqC5` with `x` bound to 3 and `y` to 4. -/
def facC5 : Factory := bindVar (bindVar eqC5.2 "x" 3) "y" 4

/-- First evaluation of `eqC5`. -/
def evC5a : Except EvalErr Val × Factory × List Nat := evalRoot facC5 eqC5.1

/-- Rebind `x` to 5 and re-evaluate. -/
def evC5b : Except EvalErr Val × Factory × List Nat :=
  evalRoot (bindVar evC5a.2.1 "x" 5) eqC5.1

/-- The equation `"x + 1"` built from an empty factory. -/
def eqShare1 : Nat × Factory :=
  match makeEquation emptyFactory "x + 1" with
  | .ok r => r
  | .error _ => (0, emptyFactory)

/-- The equation `"x * 2"` built from `eqShare1`'s factory (shared symbol
table). -/
def eqShare2 : Nat × Factory :=
  match makeEquation eqShare1.2 "x * 2" with
  | .ok r => r
  | .error _ => (0, emptyFactory)

theorem fromDigits_decAux : ∀ f n, n ≤ f → fromDigits (decAux f n) = n := by
  intro f
  induction f with
  | zero =>
    intro n hn
    interval_cases n
    simp [decAux, fromDigits]
  | succ f ih =>
    intro n hn
    match n with
    | 0 => simp [decAux, fromDigits]
    | m + 1 =>
      have hdiv : (m + 1) / 10 ≤ f := by
        have h1 : (m + 1) / 10 < m + 1 := Nat.div_lt_self (Nat.succ_pos m) (by omega)
        omega
      simp only [decAux, fromDigits, ih _ hdiv]
      omega

theorem decAux_lt10 : ∀ f n d, d ∈ decAux f n → d < 10 := by
  intro f
  induction f with
  | zero => intro n d hd; simp [decAux] at hd
  | succ f ih =>
    intro n d hd
    match n with
    | 0 => simp [decAux] at hd
    | m + 1 =>
      simp only [decAux, List.mem_cons] at hd
      rcases hd with h | h
      · subst h; exact Nat.mod_lt _ (by omega)
      · exact ih _ _ h

theorem digitChar_inj : ∀ a, a < 10 → ∀ b, b < 10 → Nat.digitChar a = Nat.digitChar b → a = b := by
  decide

theorem map_digitChar_inj : ∀ l₁ l₂ : List Nat, (∀ d ∈ l₁, d < 10) → (∀ d ∈ l₂, d < 10) →
    l₁.map Nat.digitChar = l₂.map Nat.digitChar → l₁ = l₂ := by
  intro l₁
  induction l₁ with
  | nil => intro l₂ _ _ h; cases l₂ <;> simp_all
  | cons a as ih =>
    intro l₂ h₁ h₂ h
    cases l₂ with
    | nil => simp at h
    | cons b bs =>
      simp only [List.map_cons, List.cons.injEq] at h
      have ha : a = b := digitChar_inj a (h₁ a (by simp)) b (h₂ b (by simp)) h.1
      have hs : as = bs := ih bs (fun d hd => h₁ d (by simp [hd])) (fun d hd => h₂ d (by simp [hd])) h.2
      rw [ha, hs]

theorem decRepr_inj : ∀ m n, decRepr m = decRepr n → m = n := by
  intro m n h
  unfold decRepr at h
  by_cases hm : m = 0 <;> by_cases hn : n = 0
  · omega
  · exfalso
    simp only [hm, if_pos rfl, if_neg hn] at h
    have hdata : ['0'] = (decAux n n).reverse.map Nat.digitChar := by
      have := congrArg String.data h
      simpa using this
    have hlist : (decAux n n).reverse = [0] :=
      map_digitChar_inj _ [0]
        (fun d hd => decAux_lt10 n n d (List.mem_reverse.mp hd)) (by simp)
        (by rw [← hdata]; decide)
    have : decAux n n = [0] := by
      have := congrArg List.reverse hlist
      simpa using this
    have h0 := fromDigits_decAux n n (le_refl n)
    rw [this] at h0
    simp [fromDigits] at h0
    omega
  · exfalso
    simp only [hn, if_pos rfl, if_neg hm] at h
    have hdata : (decAux m m).reverse.map Nat.digitChar = ['0'] := by
      have := congrArg String.data h
      simpa using this
    have hlist : (decAux m m).reverse = [0] :=
      map_digitChar_inj _ [0]
        (fun d hd => decAux_lt10 m m d (List.mem_reverse.mp hd)) (by simp)
        (by simpa using hdata)
    have : decAux m m = [0] := by
      have := congrArg List.reverse hlist
      simpa using this
    have h0 := fromDigits_decAux m m (le_refl m)
    rw [this] at h0
    simp [fromDigits] at h0
    omega
  · simp only [if_neg hm, if_neg hn] at h
    have hdata := congrArg String.data h
    simp only [String.mk] at hdata
    have hlist : (decAux m m).reverse = (decAux n n).reverse :=
      map_digitChar_inj _ _
        (fun d hd => decAux_lt10 m m d (List.mem_reverse.mp hd))
        (fun d hd => decAux_lt10 n n d (List.mem_reverse.mp hd))
        (by simpa using hdata)
    have hdg : decAux m m = decAux n n := by
      have := congrArg List.reverse hlist
      simpa using this
    have h1 := fromDigits_decAux m m (le_refl m)
    have h2 := fromDigits_decAux n n (le_refl n)
    rw [hdg, h2] at h1
    omega

theorem string_append_data (s t : String) : (s ++ t).data = s.data ++ t.data := rfl

theorem string_append_left_cancel {s t u : String} (h : s ++ t = s ++ u) : t = u := by
  have hd := congrArg String.data h
  rw [string_append_data, string_append_data] at hd
  exact String.ext (List.append_cancel_left hd)

theorem spsLoop_length : ∀ (l : List DAtom) (cd : String → Nat),
    (spsLoop l cd).length = l.length := by
  intro l
  induction l with
  | nil => intro cd; rfl
  | cons a rest ih => intro cd; simp [spsLoop, ih]

theorem spsLoop_names : ∀ (l : List DAtom) (cd : String → Nat) (i : Nat), i < l.length →
    (spsLoop l cd).getD i default =
      ⟨(l.getD i default).element ++
         decRepr (cd (l.getD i default).element +
           ((l.take i).map DAtom.element).count (l.getD i default).element),
       l.getD i default⟩ := by
  intro l
  induction l with
  | nil => intro cd i hi; simp at hi
  | cons a rest ih =>
    intro cd i hi
    match i with
    | 0 => simp [spsLoop]
    | i + 1 =>
      have hi' : i < rest.length := by simpa using hi
      have hrec := ih (fun e => if e = a.element then cd a.element + 1 else cd e) i hi'
      simp only [spsLoop, List.getD_cons_succ, List.take_succ_cons, List.map_cons,
        List.count_cons, List.map_take] at hrec ⊢
      rw [hrec]
      by_cases he : (rest.getD i default).element = a.element
      · rw [if_pos he]
        have h2 : (a.element = (rest.getD i default).element) := he.symm
        simp only [if_pos h2, he]
        rw [if_pos (show ((a.element == a.element) = true) by simp)]
        congr 3
        omega
      · rw [if_neg he]
        have h2 : ¬ ((a.element == (rest.getD i default).element) = true) := by
          simp only [beq_iff_eq]
          exact fun hh => he hh.symm
        rw [if_neg h2]
        congr 3

theorem count_take_lt {α} [DecidableEq α] :
    ∀ (l : List α) (i j : Nat) (d : α), i < j → j ≤ l.length →
    (l.take i).count (l.getD i d) < (l.take j).count (l.getD i d) := by
  intro l i j d hij hj
  have hi : i < l.length := lt_of_lt_of_le hij hj
  have hsucc : l.take (i + 1) = l.take i ++ [l.getD i d] := by
    rw [List.take_succ]
    have hget : l[i]? = some (l.getD i d) := by
      rw [List.getD_eq_getElem?_getD, List.getElem?_eq_getElem hi]
      rfl
    rw [hget]
    rfl
  have hcount_succ : (l.take (i + 1)).count (l.getD i d) =
      (l.take i).count (l.getD i d) + 1 := by
    rw [hsucc, List.count_append]
    simp
  have hprefix : l.take (i + 1) <+: l.take j := by
    have : (l.take j).take (i + 1) = l.take (i + 1) := by
      rw [List.take_take]
      congr 1
      omega
    rw [← this]
    exact List.take_prefix _ _
  have hle : (l.take (i + 1)).count (l.getD i d) ≤ (l.take j).count (l.getD i d) :=
    hprefix.sublist.count_le _
  omega

/-- C8: in `AtomParSet.__init__`, U21/U31/U32 are `ParameterProxy`s for
U12/U13/U23, and B21/B31/B32 for B12/B13/B23: both names of a pair resolve
to the same underlying wrapper, so setting one member and getting the other
returns the value just set. -/
theorem atomParSet_proxy_aliasing : ∀ (a : DAtom) (v : Int),
    (apsGetValue "U21" (apsSetValue "U12" v a) = some v ∧
     apsGetValue "U12" (apsSetValue "U21" v a) = some v) ∧
    (apsGetValue "U31" (apsSetValue "U13" v a) = some v ∧
     apsGetValue "U13" (apsSetValue "U31" v a) = some v) ∧
    (apsGetValue "U32" (apsSetValue "U23" v a) = some v ∧
     apsGetValue "U23" (apsSetValue "U32" v a) = some v) ∧
    (apsGetValue "B21" (apsSetValue "B12" v a) = some v ∧
     apsGetValue "B12" (apsSetValue "B21" v a) = some v) ∧
    (apsGetValue "B31" (apsSetValue "B13" v a) = some v ∧
     apsGetValue "B13" (apsSetValue "B31" v a) = some v) ∧
    (apsGetValue "B32" (apsSetValue "B23" v a) = some v ∧
     apsGetValue "B23" (apsSetValue "B32" v a) = some v) ∧
    (apsFind "U21").map APar.underlying = (apsFind "U12").map APar.underlying ∧
    (apsFind "U31").map APar.underlying = (apsFind "U13").map APar.underlying ∧
    (apsFind "U32").map APar.underlying = (apsFind "U23").map APar.underlying ∧
    (apsFind "B21").map APar.underlying = (apsFind "B12").map APar.underlying ∧
    (apsFind "B31").map APar.underlying = (apsFind "B13").map APar.underlying ∧
    (apsFind "B32").map APar.underlying = (apsFind "B23").map APar.underlying := by
  intro a v
  exact ⟨⟨rfl, rfl⟩, ⟨rfl, rfl⟩, ⟨rfl, rfl⟩, ⟨rfl, rfl⟩, ⟨rfl, rfl⟩, ⟨rfl, rfl⟩,
    rfl, rfl, rfl, rfl, rfl, rfl⟩

/-- C9 counterexample: `StructureParSet.__init__` can give two distinct
atoms the same name: with elements `["A1", "A", "A", ..., "A"]` (eleven
`A`s), atom 0 (element `A1`, count 0) and atom 11 (element `A`, count 10)
are both named `A10`. -/
theorem structureParSet_name_collision :
    ((StructureParSet.init exStru).atoms.getD 0 default).apname = "A10" ∧
    ((StructureParSet.init exStru).atoms.getD 11 default).apname = "A10" ∧
    ((StructureParSet.init exStru).atoms.getD 0 default).atom ≠
      ((StructureParSet.init exStru).atoms.getD 11 default).atom ∧
    ¬ ((StructureParSet.init exStru).atoms.map AtomParSetM.apname).Nodup := by
  decide

/-- C9 (amended): `StructureParSet.__init__` names each `AtomParSet` as the
atom's element followed by the decimal count of earlier atoms of the same
element, in structure order, and keeps `atoms` in structure order; atoms of
the same element always receive distinct names (atoms of different elements
may collide when an element symbol ends in digits). -/
theorem structureParSet_naming (stru : List DAtom) :
    (StructureParSet.init stru).atoms.length = stru.length ∧
    (∀ i, i < stru.length →
      ((StructureParSet.init stru).atoms.getD i default).atom = stru.getD i default ∧
      ((StructureParSet.init stru).atoms.getD i default).apname =
        (stru.getD i default).element ++
          decRepr (((stru.take i).map DAtom.element).count
            (stru.getD i default).element)) ∧
    (∀ i j, i < j → j < stru.length →
      (stru.getD i default).element = (stru.getD j default).element →
      ((StructureParSet.init stru).atoms.getD i default).apname ≠
        ((StructureParSet.init stru).atoms.getD j default).apname) := by
  refine ⟨spsLoop_length stru _, fun i hi => ?_, fun i j hij hj hel heq => ?_⟩
  · have h := spsLoop_names stru (fun _ => 0) i hi
    rw [StructureParSet.init]
    rw [h]
    exact ⟨rfl, by simp⟩
  · have hi : i < stru.length := lt_trans hij hj
    have hni := spsLoop_names stru (fun _ => 0) i hi
    have hnj := spsLoop_names stru (fun _ => 0) j hj
    rw [StructureParSet.init] at heq
    simp only [hni, hnj] at heq
    rw [← hel] at heq
    have hcancel := string_append_left_cancel heq
    have hc := decRepr_inj _ _ hcancel
    simp only [Nat.zero_add] at hc
    have hlt : ((stru.take i).map DAtom.element).count (stru.getD i default).element <
        ((stru.take j).map DAtom.element).count (stru.getD i default).element := by
      have hmap : ∀ k : Nat, (stru.take k).map DAtom.element = (stru.map DAtom.element).take k := by
        intro k
        rw [List.map_take]
      have hgd : (stru.map DAtom.element).getD i "" = (stru.getD i default).element := by
        rw [List.getD_eq_getElem?_getD, List.getD_eq_getElem?_getD]
        rw [List.getElem?_map]
        rw [List.getElem?_eq_getElem hi]
        rfl
      have := count_take_lt (stru.map DAtom.element) i j "" hij
        (by rw [List.length_map]; omega)
      rw [hgd] at this
      rw [hmap i, hmap j]
      exact this
    omega

/-- C9 witness: two same-element atoms (positions 1 and 5, both element
`A`) of the collision structure still receive distinct names. -/
theorem structureParSet_naming_witness :
    ((StructureParSet.init exStru).atoms.getD 1 default).apname ≠
      ((StructureParSet.init exStru).atoms.getD 5 default).apname :=
  (structureParSet_naming exStru).2.2 1 5 (by decide) (by decide) (by decide)

/-- C10: `StructureParSet.getSpaceGroup` returns the constant string
`"P 1"` for every adapted structure, regardless of the wrapped structure's
actual symmetry. -/
theorem getSpaceGroup_always_P1 : ∀ s : StructureParSetM, getSpaceGroup s = "P 1" :=
  fun _ => rfl

/-! #### List update helper lemmas -/
theorem getD_set_ne {α} (l : List α) (i j : Nat) (a d : α) (h : j ≠ i) :
    (l.set i a).getD j d = l.getD j d := by
  rw [List.getD_eq_getElem?_getD, List.getD_eq_getElem?_getD,
    List.getElem?_set_ne (fun hh => h hh.symm)]

theorem getD_set_self_of_lt {α} (l : List α) (i : Nat) (a d : α) (h : i < l.length) :
    (l.set i a).getD i d = a := by
  rw [List.getD_eq_getElem?_getD, List.getElem?_set_eq_of_lt a h]
  rfl

theorem getD_set_false_self (l : List Bool) (i : Nat) :
    (l.set i false).getD i false = false := by
  rcases Nat.lt_or_ge i l.length with h | h
  · exact getD_set_self_of_lt l i false false h
  · rw [List.getD_eq_default]
    rwa [List.length_set]

theorem count_true_set_false (l : List Bool) (i : Nat) (h : l.getD i false = true) :
    (l.set i false).count true < l.count true := by
  induction l generalizing i with
  | nil => simp [List.getD_nil] at h
  | cons b bs ih =>
    match i with
    | 0 =>
      simp only [List.getD_cons_zero] at h
      subst h
      simp [List.count_cons]
    | i + 1 =>
      simp only [List.getD_cons_succ] at h
      have := ih i h
      simp only [List.set_cons_succ, List.count_cons]
      omega

/-! #### Dirty-marking lemmas -/
theorem foldr_maxObs_bound (ns : List Node) :
    ∀ n ∈ ns, n.observers.length ≤ ns.foldr (fun n m => max n.observers.length m) 0 := by
  induction ns with
  | nil => intro n hn; cases hn
  | cons x xs ih =>
    intro n hn
    simp only [List.foldr_cons]
    rcases List.mem_cons.mp hn with h | h
    · subst h; exact Nat.le_max_left _ _
    · exact le_trans (ih n h) (Nat.le_max_right _ _)

theorem node_default_of_ge (g : Graph) {i : Nat} (h : g.size ≤ i) :
    g.node i = default := by
  unfold Graph.node
  exact List.getD_eq_default _ _ h

theorem obsOf_length_le_maxObs (g : Graph) (i : Nat) :
    (g.obsOf i).length ≤ maxObs g := by
  rcases Nat.lt_or_ge i g.size with h | h
  · have hmem : g.node i ∈ g.nodes := by
      unfold Graph.node
      rw [List.getD_eq_getElem _ _ h]
      exact List.getElem_mem ..
    exact foldr_maxObs_bound g.nodes (g.node i) hmem
  · unfold Graph.obsOf
    rw [node_default_of_ge g h]
    exact Nat.zero_le _

theorem obs_mem_lt_size (g : Graph) {i j : Nat} (h : j ∈ g.obsOf i) : i < g.size := by
  by_contra hge
  unfold Graph.obsOf at h
  rw [node_default_of_ge g (by omega)] at h
  cases h

theorem children_mem_lt_size (g : Graph) {i c : Nat} (h : c ∈ g.childrenOf i) : i < g.size := by
  by_contra hge
  unfold Graph.childrenOf at h
  rw [node_default_of_ge g (by omega)] at h
  cases h

theorem mdAux_nil (g : Graph) (fuel : Nat) (s : EState) : mdAux g fuel [] s = (s, []) := by
  cases fuel <;> rfl

theorem setDirty_isClean_ne (s : EState) {i j : Nat} (h : j ≠ i) :
    (s.setDirty i).isClean j = s.isClean j :=
  getD_set_ne _ _ _ _ _ h

theorem setDirty_isClean_self (s : EState) (i : Nat) :
    (s.setDirty i).isClean i = false :=
  getD_set_false_self _ _

theorem setDirty_isClean_mono (s : EState) (i j : Nat)
    (h : (s.setDirty i).isClean j = true) : s.isClean j = true := by
  by_cases hij : j = i
  · subst hij
    rw [setDirty_isClean_self] at h
    cases h
  · rwa [setDirty_isClean_ne s hij] at h

/-- Basic facts about `mdAux`, for every fuel: values untouched, flag-vector
length kept, flags only flip clean-to-dirty, exactly the traced nodes flip,
traced nodes were clean and end dirty, and the trace has no duplicates. -/
theorem mdAux_basic (g : Graph) : ∀ (fuel : Nat) (ws : List Nat) (s : EState),
    (mdAux g fuel ws s).1.value = s.value ∧
    (mdAux g fuel ws s).1.clean.length = s.clean.length ∧
    (∀ j, (mdAux g fuel ws s).1.isClean j = true → s.isClean j = true) ∧
    (∀ j, j ∉ (mdAux g fuel ws s).2 → (mdAux g fuel ws s).1.isClean j = s.isClean j) ∧
    (∀ j ∈ (mdAux g fuel ws s).2, s.isClean j = true ∧ (mdAux g fuel ws s).1.isClean j = false) ∧
    (mdAux g fuel ws s).2.Nodup := by
  intro fuel
  induction fuel with
  | zero =>
    intro ws s
    simp [mdAux]
  | succ fuel ih =>
    intro ws s
    cases ws with
    | nil => simp [mdAux]
    | cons i rest =>
      by_cases hc : s.isClean i = true
      · have hstep : mdAux g (fuel + 1) (i :: rest) s =
            ((mdAux g fuel (g.obsOf i ++ rest) (s.setDirty i)).1,
              i :: (mdAux g fuel (g.obsOf i ++ rest) (s.setDirty i)).2) := by
          rw [mdAux, if_pos hc]
        obtain ⟨ihv, ihl, ihmono, ihout, ihtr, ihnd⟩ := ih (g.obsOf i ++ rest) (s.setDirty i)
        rw [hstep]
        have hlen : (s.setDirty i).clean.length = s.clean.length := by
          unfold EState.setDirty
          exact List.length_set ..
        refine ⟨ihv, by rw [ihl]; exact hlen, ?_, ?_, ?_, ?_⟩
        · intro j hj
          exact setDirty_isClean_mono s i j (ihmono j hj)
        · intro j hj
          simp only [List.mem_cons, not_or] at hj
          rw [ihout j hj.2]
          exact setDirty_isClean_ne s hj.1
        · intro j hj
          simp only [List.mem_cons] at hj
          rcases hj with hj | hj
          · refine ⟨hj ▸ hc, ?_⟩
            by_contra hcl
            rw [Bool.not_eq_false] at hcl
            have hmn := ihmono j hcl
            rw [hj, setDirty_isClean_self] at hmn
            cases hmn
          · obtain ⟨h1, h2⟩ := ihtr j hj
            exact ⟨setDirty_isClean_mono s i j h1, h2⟩
        · refine List.nodup_cons.mpr ⟨?_, ihnd⟩
          intro hmem
          have h1 := (ihtr i hmem).1
          rw [setDirty_isClean_self] at h1
          cases h1
      · have hstep : mdAux g (fuel + 1) (i :: rest) s = mdAux g fuel rest s := by
          rw [mdAux, if_neg hc]
        rw [hstep]
        exact ih rest s

/-- Provenance: every traced node satisfies any property that holds of the
worklist and is closed under notification edges. -/
theorem mdAux_trace_closure (g : Graph) (P : Nat → Prop)
    (hP : ∀ i j, P i → j ∈ g.obsOf i → P j) :
    ∀ (fuel : Nat) (ws : List Nat) (s : EState), (∀ w ∈ ws, P w) →
    ∀ j ∈ (mdAux g fuel ws s).2, P j := by
  intro fuel
  induction fuel with
  | zero => intro ws s hws j hj; simp [mdAux] at hj
  | succ fuel ih =>
    intro ws s
    cases ws with
    | nil => intro hws j hj; simp [mdAux] at hj
    | cons i rest =>
      intro hws j hj
      by_cases hc : s.isClean i = true
      · rw [mdAux, if_pos hc] at hj
        simp only [List.mem_cons] at hj
        rcases hj with hj | hj
        · exact hj ▸ hws i (by simp)
        · refine ih (g.obsOf i ++ rest) (s.setDirty i) ?_ j hj
          intro w hw
          rcases List.mem_append.mp hw with hw | hw
          · exact hP i w (hws i (by simp)) hw
          · exact hws w (by simp [hw])
      · rw [mdAux, if_neg hc] at hj
        exact ih rest s (fun w hw => hws w (by simp [hw])) j hj

/-- With sufficient fuel, every worklist node ends dirty and every traced
node's observers end dirty. -/
theorem mdAux_complete (g : Graph) : ∀ (fuel : Nat) (ws : List Nat) (s : EState),
    mdFuel g ws s ≤ fuel →
    (∀ w ∈ ws, (mdAux g fuel ws s).1.isClean w = false) ∧
    (∀ i ∈ (mdAux g fuel ws s).2, ∀ j ∈ g.obsOf i,
      (mdAux g fuel ws s).1.isClean j = false) := by
  intro fuel
  induction fuel with
  | zero =>
    intro ws s hfuel
    rw [mdFuel] at hfuel
    have hws : ws = [] := by
      cases ws with
      | nil => rfl
      | cons a l => simp at hfuel
    subst hws
    simp [mdAux]
  | succ fuel ih =>
    intro ws s
    cases ws with
    | nil =>
      intro hfuel
      simp [mdAux]
    | cons i rest =>
      intro hfuel
      rw [mdFuel] at hfuel
      by_cases hc : s.isClean i = true
      · have hcc : countClean (s.setDirty i) < countClean s := by
          rw [countClean, countClean, EState.setDirty]
          exact count_true_set_false s.clean i hc
        have hobs : (g.obsOf i).length ≤ maxObs g := obsOf_length_le_maxObs g i
        have hbound : mdFuel g (g.obsOf i ++ rest) (s.setDirty i) ≤ fuel := by
          rw [mdFuel, List.length_append]
          have h1 : countClean (s.setDirty i) * maxObs g ≤
              (countClean s - 1) * maxObs g :=
            Nat.mul_le_mul_right _ (by omega)
          have h3 : 1 ≤ countClean s := by omega
          have h2 : (countClean s - 1) * maxObs g + maxObs g = countClean s * maxObs g := by
            calc (countClean s - 1) * maxObs g + maxObs g
                = (countClean s - 1 + 1) * maxObs g := (Nat.succ_mul _ _).symm
              _ = countClean s * maxObs g := by rw [Nat.sub_add_cancel h3]
          simp only [List.length_cons] at hfuel
          omega
        obtain ⟨iha, ihb⟩ := ih (g.obsOf i ++ rest) (s.setDirty i) hbound
        obtain ⟨_, _, ihmono, _, _, _⟩ := mdAux_basic g fuel (g.obsOf i ++ rest) (s.setDirty i)
        have hstep : mdAux g (fuel + 1) (i :: rest) s =
            ((mdAux g fuel (g.obsOf i ++ rest) (s.setDirty i)).1,
              i :: (mdAux g fuel (g.obsOf i ++ rest) (s.setDirty i)).2) := by
          rw [mdAux, if_pos hc]
        rw [hstep]
        constructor
        · intro w hw
          simp only [List.mem_cons] at hw
          rcases hw with hw | hw
          · subst hw
            simp only
            by_contra hcl
            rw [Bool.not_eq_false] at hcl
            have hmn := ihmono w hcl
            rw [setDirty_isClean_self] at hmn
            cases hmn
          · exact iha w (by simp [hw])
        · intro k hk j hj
          simp only [List.mem_cons] at hk
          rcases hk with hk | hk
          · subst hk
            exact iha j (by simp [hj])
          · exact ihb k hk j hj
      · have hstep : mdAux g (fuel + 1) (i :: rest) s = mdAux g fuel rest s := by
          rw [mdAux, if_neg hc]
        rw [hstep]
        have hbound : mdFuel g rest s ≤ fuel := by
          rw [mdFuel]
          simp only [List.length_cons] at hfuel
          omega
        obtain ⟨iha, ihb⟩ := ih rest s hbound
        constructor
        · intro w hw
          simp only [List.mem_cons] at hw
          rcases hw with hw | hw
          · subst hw
            obtain ⟨_, _, ihmono, _, _, _⟩ := mdAux_basic g fuel rest s
            by_contra hcl
            rw [Bool.not_eq_false] at hcl
            have hmn := ihmono w hcl
            rw [hmn] at hc
            exact hc rfl
          · exact iha w hw
        · exact ihb

/-! #### Reachability and invariant lemmas -/
theorem obsReach_snoc (g : Graph) {a i j : Nat} (h : ObsReach g a i)
    (hj : j ∈ g.obsOf i) : ObsReach g a j := by
  induction h with
  | base h0 => exact .step h0 (.base hj)
  | step h0 t ih => exact .step h0 (ih hj)

theorem reaches_le (g : Graph) (hwf : WF g) : ∀ {i j}, Reaches g i j → j ≤ i := by
  intro i j h
  induction h with
  | refl => exact le_refl _
  | @step i c j hc _ ih =>
    have his : i < g.size := children_mem_lt_size g hc
    have := hwf.1 i his c hc
    omega

theorem reaches_to_obsReach (g : Graph) (hwf : WF g) :
    ∀ {j a}, Reaches g j a → j ≠ a → ObsReach g a j := by
  intro j a h
  induction h with
  | refl => intro hne; exact absurd rfl hne
  | @step i c j hc htail ih =>
    intro _
    have his : i < g.size := children_mem_lt_size g hc
    have hobs : i ∈ g.obsOf c := hwf.2.2.2 i his c hc
    by_cases hca : c = j
    · subst hca
      exact .base hobs
    · exact obsReach_snoc g (ih hca) hobs

theorem obsReach_to_reaches (g : Graph) (hwf : WF g) :
    ∀ {a j}, ObsReach g a j → Reaches g j a := by
  intro a j h
  induction h with
  | @base a j h0 =>
    obtain ⟨_, hmem⟩ := hwf.2.2.1 _ (obs_mem_lt_size g h0) _ h0
    exact .step hmem (.refl _)
  | @step a k j h0 htail ih =>
    obtain ⟨_, hmem⟩ := hwf.2.2.1 _ (obs_mem_lt_size g h0) _ h0
    -- j reaches k and k owns a as a child
    have : ∀ {x y c : Nat}, Reaches g x y → c ∈ g.childrenOf y → Reaches g x c := by
      intro x y c hxy
      induction hxy with
      | refl => intro hcy; exact .step hcy (.refl _)
      | step h1 _ ih2 => intro hcy; exact .step h1 (ih2 hcy)
    exact this ih hmem

theorem cleanDown_dirty_up (g : Graph) (s : EState) (hwf : WF g) (hcd : CleanDown g s) :
    ∀ {f j}, ObsReach g f j → s.isClean f = false → s.isClean j = false := by
  intro f j hr
  induction hr with
  | @base f j h =>
    intro hf
    have hfs := obs_mem_lt_size g h
    obtain ⟨hjs, hmem⟩ := hwf.2.2.1 _ hfs _ h
    by_contra hcl
    rw [Bool.not_eq_false] at hcl
    have hcf := hcd _ hjs hcl _ hmem
    rw [hcf] at hf
    cases hf
  | @step f k j h htail ih =>
    intro hf
    have hfs := obs_mem_lt_size g h
    obtain ⟨hks, hmem⟩ := hwf.2.2.1 _ hfs _ h
    have hk : s.isClean k = false := by
      by_contra hcl
      rw [Bool.not_eq_false] at hcl
      have hcf := hcd _ hks hcl _ hmem
      rw [hcf] at hf
      cases hf
    exact ih hk

theorem markDirty_dirty_noop (g : Graph) (i : Nat) (s : EState)
    (h : s.isClean i = false) : markDirty g [i] s = (s, []) := by
  have hne : ¬ (s.isClean i = true) := by rw [h]; simp
  have hfuel : mdFuel g [i] s = countClean s * maxObs g + 1 := by
    rw [mdFuel]
    simp [Nat.add_comm]
  rw [markDirty, hfuel, mdAux, if_neg hne]
  exact mdAux_nil ..

/-- Full characterisation of `setValue` (spec §4.1–4.2): the stored value
is replaced and nothing is evaluated; exactly the argument and its clean
ancestors flip to dirty, each exactly once; downward closure of
cleanliness is preserved. -/
theorem setValue_spec (g : Graph) (s : EState) (a : Nat) (v : Val)
    (hwf : WF g) (hcd : CleanDown g s) :
    (setValue g a v s).1.value = s.value.set a v ∧
    (setValue g a v s).1.clean.length = s.clean.length ∧
    (∀ j, (setValue g a v s).1.isClean j = false ↔
      (s.isClean j = false ∨ j = a ∨ ObsReach g a j)) ∧
    (setValue g a v s).2.Nodup ∧
    (∀ j, j ∈ (setValue g a v s).2 ↔
      (s.isClean j = true ∧ (j = a ∨ ObsReach g a j))) ∧
    CleanDown g (setValue g a v s).1 := by
  set s₀ : EState := { s with value := s.value.set a v } with hs₀
  have hiseq : ∀ j, s₀.isClean j = s.isClean j := fun j => rfl
  have hcd₀ : CleanDown g s₀ := by
    intro j hj hcl c hc
    rw [hiseq] at hcl ⊢
    exact hcd j hj hcl c hc
  have hrw : setValue g a v s = mdAux g (mdFuel g [a] s₀) [a] s₀ := rfl
  obtain ⟨hv, hl, hmono, hout, htr, hnd⟩ := mdAux_basic g (mdFuel g [a] s₀) [a] s₀
  obtain ⟨hcompl1, hcompl2⟩ := mdAux_complete g (mdFuel g [a] s₀) [a] s₀ (le_refl _)
  have hP : ∀ j ∈ (mdAux g (mdFuel g [a] s₀) [a] s₀).2, j = a ∨ ObsReach g a j := by
    refine mdAux_trace_closure g (fun x => x = a ∨ ObsReach g a x) ?_ _ _ _ ?_
    · intro i j hPi hij
      rcases hPi with rfl | hPi
      · exact Or.inr (.base hij)
      · exact Or.inr (obsReach_snoc g hPi hij)
    · intro w hw
      simp only [List.mem_singleton] at hw
      exact Or.inl hw
  have hdirtya : (mdAux g (mdFuel g [a] s₀) [a] s₀).1.isClean a = false :=
    hcompl1 a (by simp)
  have hcdr : CleanDown g (mdAux g (mdFuel g [a] s₀) [a] s₀).1 := by
    intro j hj hcl c hc
    have hcls : s₀.isClean j = true := hmono j hcl
    have hcls : s₀.isClean c = true := hcd₀ j hj hcls c hc
    by_cases hctr : c ∈ (mdAux g (mdFuel g [a] s₀) [a] s₀).2
    · exfalso
      have hobs : j ∈ g.obsOf c := hwf.2.2.2 j hj c hc
      have := hcompl2 c hctr j hobs
      rw [this] at hcl
      cases hcl
    · rw [hout c hctr]
      exact hcls
  refine ⟨hv, ?_, ?_, hnd, ?_, hcdr⟩
  · rw [hrw, hl]
  · intro j
    rw [hrw]
    constructor
    · intro hdirty
      by_cases hjtr : j ∈ (mdAux g (mdFuel g [a] s₀) [a] s₀).2
      · exact Or.inr (hP j hjtr)
      · rw [hout j hjtr, hiseq] at hdirty
        exact Or.inl hdirty
    · intro hcase
      rcases hcase with hdirty | rfl | hreach
      · by_contra hcl
        rw [Bool.not_eq_false] at hcl
        have := hmono j hcl
        rw [hiseq] at this
        rw [this] at hdirty
        cases hdirty
      · exact hdirtya
      · exact cleanDown_dirty_up g _ hwf hcdr hreach hdirtya
  · intro j
    rw [hrw]
    constructor
    · intro hjtr
      obtain ⟨h1, _⟩ := htr j hjtr
      rw [hiseq] at h1
      exact ⟨h1, hP j hjtr⟩
    · rintro ⟨hclean, hcase⟩
      by_contra hjtr
      have hflag := hout j hjtr
      have hdirty : (mdAux g (mdFuel g [a] s₀) [a] s₀).1.isClean j = false := by
        rcases hcase with rfl | hreach
        · exact hdirtya
        · exact cleanDown_dirty_up g _ hwf hcdr hreach hdirtya
      rw [hdirty] at hflag
      rw [hiseq] at hflag
      rw [← hflag] at hclean
      cases hclean

theorem stateOK_refl (g : Graph) (s : EState) : StateOK g s s [] := by
  refine ⟨rfl, rfl, fun j _ => ⟨rfl, rfl⟩, fun j hj => absurd hj (by simp), by simp, fun j _ => rfl⟩

theorem stateOK_clean_mono {g : Graph} {s s' : EState} {tr : List Nat}
    (h : StateOK g s s' tr) {j : Nat} (hj : s.isClean j = true) : s'.isClean j = true := by
  by_cases hmem : j ∈ tr
  · exact (h.2.2.2.1 j hmem).2
  · rw [(h.2.2.1 j hmem).1]
    exact hj

theorem stateOK_trans {g : Graph} {s s₁ s₂ : EState} {tr₁ tr₂ : List Nat}
    (h1 : StateOK g s s₁ tr₁) (h2 : StateOK g s₁ s₂ tr₂) :
    StateOK g s s₂ (tr₁ ++ tr₂) := by
  obtain ⟨l1v, l1c, out1, in1, nd1, arg1⟩ := h1
  obtain ⟨l2v, l2c, out2, in2, nd2, arg2⟩ := h2
  have hdisj : tr₁.Disjoint tr₂ := by
    intro j hj1 hj2
    have hc1 := (in1 j hj1).2
    have hc2 := (in2 j hj2).1
    rw [hc1] at hc2
    cases hc2
  refine ⟨by rw [l2v, l1v], by rw [l2c, l1c], ?_, ?_, ?_, fun j hj => by rw [arg2 j hj, arg1 j hj]⟩
  · intro j hj
    rw [List.mem_append] at hj
    push_neg at hj
    obtain ⟨o2c, o2v⟩ := out2 j hj.2
    obtain ⟨o1c, o1v⟩ := out1 j hj.1
    exact ⟨by rw [o2c, o1c], by rw [o2v, o1v]⟩
  · intro j hj
    rw [List.mem_append] at hj
    rcases hj with hj | hj
    · refine ⟨(in1 j hj).1, ?_⟩
      exact stateOK_clean_mono ⟨l2v, l2c, out2, in2, nd2, arg2⟩ (in1 j hj).2
    · have hd1 : s₁.isClean j = false := (in2 j hj).1
      have hj1 : j ∉ tr₁ := by
        intro hmem
        rw [(in1 j hmem).2] at hd1
        cases hd1
      refine ⟨?_, (in2 j hj).2⟩
      rw [← (out1 j hj1).1]
      exact hd1
  · exact List.nodup_append.mpr ⟨nd1, nd2, hdisj⟩

theorem stateOK_sized {g : Graph} {s s' : EState} {tr : List Nat}
    (h : StateOK g s s' tr) (hs : Sized g s) : Sized g s' := by
  exact ⟨by rw [h.1]; exact hs.1, by rw [h.2.1]; exact hs.2⟩

theorem stateOK_markClean (g : Graph) (s : EState) (i : Nat)
    (hd : s.isClean i = false) (hi : i < s.clean.length) :
    StateOK g s { s with clean := s.clean.set i true } [i] := by
  refine ⟨rfl, by simp [List.length_set], ?_, ?_, by simp, fun j _ => rfl⟩
  · intro j hj
    simp only [List.mem_singleton] at hj
    constructor
    · exact getD_set_ne _ _ _ _ _ hj
    · rfl
  · intro j hj
    simp only [List.mem_singleton] at hj
    subst hj
    exact ⟨hd, getD_set_self_of_lt _ _ _ _ hi⟩

theorem stateOK_writeCache (g : Graph) (s : EState) (i : Nat) (v : Val)
    (hd : s.isClean i = false) (hi : i < s.clean.length) (hop : g.isArg i = false) :
    StateOK g s (s.writeCache i v) [i] := by
  refine ⟨by simp [EState.writeCache, List.length_set], by simp [EState.writeCache, List.length_set],
    ?_, ?_, by simp, ?_⟩
  · intro j hj
    simp only [List.mem_singleton] at hj
    exact ⟨getD_set_ne _ _ _ _ _ hj, getD_set_ne _ _ _ _ _ hj⟩
  · intro j hj
    simp only [List.mem_singleton] at hj
    subst hj
    exact ⟨hd, getD_set_self_of_lt _ _ _ _ hi⟩
  · intro j hj
    by_cases hij : j = i
    · subst hij
      rw [hj] at hop
      cases hop
    · exact getD_set_ne _ _ _ _ _ hij

theorem evalListWith_trace_reach (g : Graph)
    (f : Nat → EState → Except EvalErr Val × EState × List Nat)
    (hf : ∀ c s res s' tr, f c s = (res, s', tr) → ∀ j ∈ tr, Reaches g c j) :
    ∀ (cs : List Nat) (s : EState) res s' tr, evalListWith f cs s = (res, s', tr) →
      ∀ j ∈ tr, ∃ c ∈ cs, Reaches g c j := by
  intro cs
  induction cs with
  | nil =>
    intro s res s' tr h j hj
    rw [evalListWith] at h
    cases h
    cases hj
  | cons c cs ih =>
    intro s res s' tr h j hj
    rw [evalListWith] at h
    rcases hfc : f c s with ⟨rc, s₁, tr₁⟩
    rw [hfc] at h
    cases rc with
    | error e =>
      cases h
      exact ⟨c, by simp, hf c s _ _ _ hfc j hj⟩
    | ok v =>
      dsimp only at h
      rcases hrest : evalListWith f cs s₁ with ⟨rr, s₂, tr₂⟩
      rw [hrest] at h
      cases rr with
      | error e =>
        cases h
        rcases List.mem_append.mp hj with hj | hj
        · exact ⟨c, by simp, hf c s _ _ _ hfc j hj⟩
        · obtain ⟨d, hd, hr⟩ := ih s₁ _ _ _ hrest j hj
          exact ⟨d, by simp [hd], hr⟩
      | ok vs =>
        cases h
        rcases List.mem_append.mp hj with hj | hj
        · exact ⟨c, by simp, hf c s _ _ _ hfc j hj⟩
        · obtain ⟨d, hd, hr⟩ := ih s₁ _ _ _ hrest j hj
          exact ⟨d, by simp [hd], hr⟩

theorem evalF_trace_reach (g : Graph) :
    ∀ (fuel i : Nat) (s : EState) res s' tr, evalF g fuel i s = (res, s', tr) →
      ∀ j ∈ tr, Reaches g i j := by
  intro fuel
  induction fuel with
  | zero =>
    intro i s res s' tr h j hj
    rw [evalF] at h
    cases h
    cases hj
  | succ fuel ih =>
    intro i s res s' tr h j hj
    rw [evalF] at h
    split at h
    · cases h
      cases hj
    · split at h
      · cases h
        simp only [List.mem_singleton] at hj
        subst hj
        exact .refl _
      · rename_i fn hkind
        rcases hLW : evalListWith (evalF g fuel) (g.childrenOf i) s with ⟨lres, s₁, tr₁⟩
        rw [hLW] at h
        cases lres with
        | error e =>
          cases h
          obtain ⟨c, hc, hr⟩ := evalListWith_trace_reach g _ (ih) _ _ _ _ _ hLW j hj
          exact .step hc hr
        | ok vs =>
          dsimp only at h
          cases hfn : fn vs with
          | error err =>
            rw [hfn] at h
            dsimp only at h
            cases h
            obtain ⟨c, hc, hr⟩ := evalListWith_trace_reach g _ (ih) _ _ _ _ _ hLW j hj
            exact .step hc hr
          | ok v =>
            rw [hfn] at h
            dsimp only at h
            cases h
            rcases List.mem_append.mp hj with hj | hj
            · obtain ⟨c, hc, hr⟩ := evalListWith_trace_reach g _ (ih) _ _ _ _ _ hLW j hj
              exact .step hc hr
            · simp only [List.mem_singleton] at hj
              subst hj
              exact .refl _

theorem evalListWith_stateOK (g : Graph)
    (f : Nat → EState → Except EvalErr Val × EState × List Nat)
    (hf : ∀ c s res s' tr, c < g.size → Sized g s → f c s = (res, s', tr) →
      StateOK g s s' tr ∧ Sized g s') :
    ∀ (cs : List Nat) (s : EState) res s' tr, (∀ c ∈ cs, c < g.size) → Sized g s →
      evalListWith f cs s = (res, s', tr) → StateOK g s s' tr ∧ Sized g s' := by
  intro cs
  induction cs with
  | nil =>
    intro s res s' tr _ hs h
    rw [evalListWith] at h
    cases h
    exact ⟨stateOK_refl g s, hs⟩
  | cons c cs ih =>
    intro s res s' tr hcs hs h
    rw [evalListWith] at h
    rcases hfc : f c s with ⟨rc, s₁, tr₁⟩
    rw [hfc] at h
    obtain ⟨hok1, hsz1⟩ := hf c s rc s₁ tr₁ (hcs c (by simp)) hs hfc
    cases rc with
    | error e =>
      cases h
      exact ⟨hok1, hsz1⟩
    | ok v =>
      dsimp only at h
      rcases hrest : evalListWith f cs s₁ with ⟨rr, s₂, tr₂⟩
      rw [hrest] at h
      obtain ⟨hok2, hsz2⟩ := ih s₁ rr s₂ tr₂ (fun d hd => hcs d (by simp [hd])) hsz1 hrest
      cases rr with
      | error e =>
        cases h
        exact ⟨stateOK_trans hok1 hok2, hsz2⟩
      | ok vs =>
        cases h
        exact ⟨stateOK_trans hok1 hok2, hsz2⟩

theorem evalF_stateOK (g : Graph) (hwf : WF g) :
    ∀ (fuel i : Nat) (s : EState) res s' tr, i < g.size → Sized g s →
      evalF g fuel i s = (res, s', tr) → StateOK g s s' tr ∧ Sized g s' := by
  intro fuel
  induction fuel with
  | zero =>
    intro i s res s' tr _ hs h
    rw [evalF] at h
    cases h
    exact ⟨stateOK_refl g s, hs⟩
  | succ fuel ih =>
    intro i s res s' tr hi hs h
    rw [evalF] at h
    split at h
    · cases h
      exact ⟨stateOK_refl g s, hs⟩
    · rename_i hdirty
      rw [Bool.not_eq_true] at hdirty
      split at h
      · rename_i hkind
        cases h
        refine ⟨stateOK_markClean g s i hdirty ?_, ?_⟩
        · rw [hs.2]; exact hi
        · exact ⟨hs.1, by simp [List.length_set, hs.2]⟩
      · rename_i fn hkind
        rcases hLW : evalListWith (evalF g fuel) (g.childrenOf i) s with ⟨lres, s₁, tr₁⟩
        rw [hLW] at h
        have hbound : ∀ c ∈ g.childrenOf i, c < g.size :=
          fun c hc => lt_trans (hwf.1 i hi c hc) hi
        obtain ⟨hok1, hsz1⟩ := evalListWith_stateOK g _ ih _ s lres s₁ tr₁ hbound hs hLW
        have hitr : i ∉ tr₁ := by
          intro hmem
          obtain ⟨c, hc, hr⟩ := evalListWith_trace_reach g _
            (evalF_trace_reach g fuel) _ _ _ _ _ hLW i hmem
          have h1 := reaches_le g hwf hr
          have h2 := hwf.1 i hi c hc
          omega
        cases lres with
        | error e =>
          cases h
          exact ⟨hok1, hsz1⟩
        | ok vs =>
          dsimp only at h
          cases hfn : fn vs with
          | error err =>
            rw [hfn] at h
            dsimp only at h
            cases h
            exact ⟨hok1, hsz1⟩
          | ok v =>
            rw [hfn] at h
            dsimp only at h
            cases h
            have hd1 : s₁.isClean i = false := by
              rw [(hok1.2.2.1 i hitr).1]
              exact hdirty
            have hil : i < s₁.clean.length := by
              rw [hsz1.2]; exact hi
            have hargi : g.isArg i = false := by
              rw [Graph.isArg, hkind]
            refine ⟨stateOK_trans hok1 (stateOK_writeCache g s₁ i v hd1 hil hargi), ?_⟩
            refine ⟨?_, ?_⟩
            · rw [EState.writeCache]
              simp only [List.length_set]
              exact hsz1.1
            · rw [EState.writeCache]
              simp only [List.length_set]
              exact hsz1.2

theorem writeCache_isClean_ne (s : EState) {i j : Nat} (v : Val) (h : j ≠ i) :
    (s.writeCache i v).isClean j = s.isClean j :=
  getD_set_ne _ _ _ _ _ h

theorem writeCache_isClean_self (s : EState) (i : Nat) (v : Val) (h : i < s.clean.length) :
    (s.writeCache i v).isClean i = true :=
  getD_set_self_of_lt _ _ _ _ h

theorem writeCache_val_ne (s : EState) {i j : Nat} (v : Val) (h : j ≠ i) :
    (s.writeCache i v).val j = s.val j :=
  getD_set_ne _ _ _ _ _ h

theorem writeCache_val_self (s : EState) (i : Nat) (v : Val) (h : i < s.value.length) :
    (s.writeCache i v).val i = v :=
  getD_set_self_of_lt _ _ _ _ h

theorem reaches_childless (g : Graph) {i j : Nat} (h : Reaches g i j)
    (hc : g.childrenOf i = []) : j = i := by
  cases h with
  | refl => rfl
  | step hmem _ =>
    rw [hc] at hmem
    cases hmem

theorem node_op_lt_size (g : Graph) {i : Nat} {fn : List Val → Except String Val}
    (hkind : (g.node i).kind = .op fn) : i < g.size := by
  by_contra hge
  rw [node_default_of_ge g (by omega)] at hkind
  cases hkind

theorem cleanDown_clean_down (g : Graph) (s : EState) (hcd : CleanDown g s) :
    ∀ {i j}, Reaches g i j → s.isClean i = true → s.isClean j = true := by
  intro i j h
  induction h with
  | refl => intro hc; exact hc
  | @step i c j hc _ ih =>
    intro hcl
    have his : i < g.size := children_mem_lt_size g hc
    exact ih (hcd i his hcl c hc)

/-- CleanDown is preserved by evaluation, and a successful evaluation
leaves the target clean with the returned value cached. -/
theorem evalListWith_clean (g : Graph) (hwf : WF g) (fuel : Nat)
    (IH : ∀ (i : Nat) (s : EState) res s' tr, i < g.size → Sized g s → CleanDown g s →
      evalF g fuel i s = (res, s', tr) →
      CleanDown g s' ∧ ∀ v, res = .ok v → s'.isClean i = true ∧ s'.val i = v) :
    ∀ (cs : List Nat) (s : EState) res s' tr, (∀ c ∈ cs, c < g.size) → Sized g s →
      CleanDown g s → evalListWith (evalF g fuel) cs s = (res, s', tr) →
      CleanDown g s' ∧
      ∀ vs, res = .ok vs →
        (∀ c ∈ cs, s'.isClean c = true) ∧ vs = cs.map s'.val := by
  intro cs
  induction cs with
  | nil =>
    intro s res s' tr _ hs hcd h
    rw [evalListWith] at h
    cases h
    refine ⟨hcd, ?_⟩
    intro vs hvs
    cases hvs
    exact ⟨fun c hc => absurd hc (by simp), by simp⟩
  | cons c cs ih =>
    intro s res s' tr hcs hs hcd h
    rw [evalListWith] at h
    rcases hfc : evalF g fuel c s with ⟨rc, s₁, tr₁⟩
    rw [hfc] at h
    have hc0 : c < g.size := hcs c (by simp)
    obtain ⟨hso1, hsz1⟩ := evalF_stateOK g hwf fuel c s rc s₁ tr₁ hc0 hs hfc
    obtain ⟨hcd1, hok1⟩ := IH c s rc s₁ tr₁ hc0 hs hcd hfc
    cases rc with
    | error e =>
      cases h
      exact ⟨hcd1, fun vs hvs => by cases hvs⟩
    | ok v =>
      dsimp only at h
      rcases hrest : evalListWith (evalF g fuel) cs s₁ with ⟨rr, s₂, tr₂⟩
      rw [hrest] at h
      obtain ⟨hso2, hsz2⟩ := evalListWith_stateOK g _ (evalF_stateOK g hwf fuel) cs s₁ rr s₂ tr₂
        (fun d hd => hcs d (by simp [hd])) hsz1 hrest
      obtain ⟨hcd2, hok2⟩ := ih s₁ rr s₂ tr₂ (fun d hd => hcs d (by simp [hd])) hsz1 hcd1 hrest
      cases rr with
      | error e =>
        cases h
        exact ⟨hcd2, fun vs hvs => by cases hvs⟩
      | ok vs' =>
        cases h
        refine ⟨hcd2, ?_⟩
        intro vs hvs
        cases hvs
        obtain ⟨hcl1, hval1⟩ := hok1 v rfl
        obtain ⟨hcl2, hmap⟩ := hok2 vs' rfl
        have hcl1' : s'.isClean c = true := stateOK_clean_mono hso2 hcl1
        have hctr2 : c ∉ tr₂ := by
          intro hmem
          have := (hso2.2.2.2.1 c hmem).1
          rw [hcl1] at this
          cases this
        have hval1' : s'.val c = v := by
          rw [(hso2.2.2.1 c hctr2).2]
          exact hval1
        constructor
        · intro d hd
          rcases List.mem_cons.mp hd with hd | hd
          · rw [hd]; exact hcl1'
          · exact hcl2 d hd
        · simp only [List.map_cons]
          rw [← hmap, hval1']

theorem evalF_clean (g : Graph) (hwf : WF g) :
    ∀ (fuel i : Nat) (s : EState) res s' tr, i < g.size → Sized g s → CleanDown g s →
      evalF g fuel i s = (res, s', tr) →
      CleanDown g s' ∧ ∀ v, res = .ok v → s'.isClean i = true ∧ s'.val i = v := by
  intro fuel
  induction fuel with
  | zero =>
    intro i s res s' tr _ _ hcd h
    rw [evalF] at h
    cases h
    exact ⟨hcd, fun v hv => by cases hv⟩
  | succ fuel ih =>
    intro i s res s' tr hi hs hcd h
    rw [evalF] at h
    split at h
    · rename_i hclean
      cases h
      exact ⟨hcd, fun v hv => by cases hv; exact ⟨hclean, rfl⟩⟩
    · rename_i hdirty
      rw [Bool.not_eq_true] at hdirty
      split at h
      · rename_i hkind
        cases h
        have hchild : g.childrenOf i = [] := by
          refine hwf.2.1 i hi ?_
          rw [Graph.isArg, hkind]
        have hnewcd : CleanDown g { s with clean := s.clean.set i true } := by
          intro j hj hcl d hd
          by_cases hji : j = i
          · subst hji
            rw [hchild] at hd
            cases hd
          · have hcl' : s.isClean j = true := by
              rw [EState.isClean] at hcl ⊢
              rwa [getD_set_ne _ _ _ _ _ hji] at hcl
            have := hcd j hj hcl' d hd
            by_cases hdi : d = i
            · rw [hdi]
              show (s.clean.set i true).getD i false = true
              exact getD_set_self_of_lt _ _ _ _ (by rw [hs.2]; exact hi)
            · show (s.clean.set i true).getD d false = true
              rw [getD_set_ne _ _ _ _ _ hdi]
              exact this
        refine ⟨hnewcd, ?_⟩
        intro v hv
        cases hv
        constructor
        · show (s.clean.set i true).getD i false = true
          exact getD_set_self_of_lt _ _ _ _ (by rw [hs.2]; exact hi)
        · rfl
      · rename_i fn hkind
        rcases hLW : evalListWith (evalF g fuel) (g.childrenOf i) s with ⟨lres, s₁, tr₁⟩
        rw [hLW] at h
        have hbound : ∀ c ∈ g.childrenOf i, c < g.size :=
          fun c hc => lt_trans (hwf.1 i hi c hc) hi
        obtain ⟨hso1, hsz1⟩ := evalListWith_stateOK g _ (evalF_stateOK g hwf fuel)
          _ s lres s₁ tr₁ hbound hs hLW
        obtain ⟨hcd1, hok1⟩ := evalListWith_clean g hwf fuel ih _ s lres s₁ tr₁ hbound hs hcd hLW
        cases lres with
        | error e =>
          cases h
          exact ⟨hcd1, fun v hv => by cases hv⟩
        | ok vs =>
          dsimp only at h
          cases hfn : fn vs with
          | error err =>
            rw [hfn] at h
            dsimp only at h
            cases h
            exact ⟨hcd1, fun v hv => by cases hv⟩
          | ok v =>
            rw [hfn] at h
            dsimp only at h
            cases h
            obtain ⟨hclkids, _⟩ := hok1 vs rfl
            have hnewcd : CleanDown g (s₁.writeCache i v) := by
              intro j hj hcl d hd
              by_cases hji : j = i
              · rw [hji] at hd
                have hdc := hclkids d hd
                by_cases hdi : d = i
                · rw [hdi]
                  exact writeCache_isClean_self s₁ i v (by rw [hsz1.2]; exact hi)
                · rw [writeCache_isClean_ne s₁ v hdi]
                  exact hdc
              · have hcl' : s₁.isClean j = true := by
                  rwa [writeCache_isClean_ne s₁ v hji] at hcl
                have hdone := hcd1 j hj hcl' d hd
                by_cases hdi : d = i
                · rw [hdi]
                  exact writeCache_isClean_self s₁ i v (by rw [hsz1.2]; exact hi)
                · rw [writeCache_isClean_ne s₁ v hdi]
                  exact hdone
            refine ⟨hnewcd, ?_⟩
            intro w hw
            cases hw
            constructor
            · exact writeCache_isClean_self s₁ i v (by rw [hsz1.2]; exact hi)
            · exact writeCache_val_self s₁ i v (by rw [hsz1.1]; exact hi)

/-- After an evaluation pass, the whole subtree below every recomputed node
is clean, and after a successful pass the whole subtree below the target is
clean. -/
theorem evalListWith_clean_sub (g : Graph) (hwf : WF g) (fuel : Nat)
    (IH : ∀ (i : Nat) (s : EState) res s' tr, i < g.size → Sized g s → CleanDown g s →
      evalF g fuel i s = (res, s', tr) →
      (∀ k ∈ tr, ∀ j, Reaches g k j → s'.isClean j = true) ∧
      (∀ v, res = .ok v → ∀ j, Reaches g i j → s'.isClean j = true)) :
    ∀ (cs : List Nat) (s : EState) res s' tr, (∀ c ∈ cs, c < g.size) → Sized g s →
      CleanDown g s → evalListWith (evalF g fuel) cs s = (res, s', tr) →
      (∀ k ∈ tr, ∀ j, Reaches g k j → s'.isClean j = true) ∧
      (∀ vs, res = .ok vs → ∀ j, (∃ c ∈ cs, Reaches g c j) → s'.isClean j = true) := by
  intro cs
  induction cs with
  | nil =>
    intro s res s' tr _ hs hcd h
    rw [evalListWith] at h
    cases h
    refine ⟨fun k hk => absurd hk (by simp), ?_⟩
    intro vs _ j hj
    obtain ⟨c, hc, _⟩ := hj
    cases hc
  | cons c cs ih =>
    intro s res s' tr hcs hs hcd h
    rw [evalListWith] at h
    rcases hfc : evalF g fuel c s with ⟨rc, s₁, tr₁⟩
    rw [hfc] at h
    have hc0 : c < g.size := hcs c (by simp)
    obtain ⟨hso1, hsz1⟩ := evalF_stateOK g hwf fuel c s rc s₁ tr₁ hc0 hs hfc
    obtain ⟨hcd1, _⟩ := evalF_clean g hwf fuel c s rc s₁ tr₁ hc0 hs hcd hfc
    obtain ⟨hsubtr1, hsub1⟩ := IH c s rc s₁ tr₁ hc0 hs hcd hfc
    cases rc with
    | error e =>
      cases h
      exact ⟨hsubtr1, fun vs hvs => by cases hvs⟩
    | ok v =>
      dsimp only at h
      rcases hrest : evalListWith (evalF g fuel) cs s₁ with ⟨rr, s₂, tr₂⟩
      rw [hrest] at h
      obtain ⟨hso2, hsz2⟩ := evalListWith_stateOK g _ (evalF_stateOK g hwf fuel) cs s₁ rr s₂ tr₂
        (fun d hd => hcs d (by simp [hd])) hsz1 hrest
      obtain ⟨hsubtr2, hsub2⟩ := ih s₁ rr s₂ tr₂ (fun d hd => hcs d (by simp [hd])) hsz1 hcd1 hrest
      have hlift : ∀ j, s₁.isClean j = true → s₂.isClean j = true :=
        fun j hj => stateOK_clean_mono hso2 hj
      cases rr with
      | error e =>
        cases h
        refine ⟨?_, fun vs hvs => by cases hvs⟩
        intro k hk j hj
        rcases List.mem_append.mp hk with hk | hk
        · exact hlift j (hsubtr1 k hk j hj)
        · exact hsubtr2 k hk j hj
      | ok vs' =>
        cases h
        refine ⟨?_, ?_⟩
        · intro k hk j hj
          rcases List.mem_append.mp hk with hk | hk
          · exact hlift j (hsubtr1 k hk j hj)
          · exact hsubtr2 k hk j hj
        · intro vs hvs j hj
          obtain ⟨d, hd, hr⟩ := hj
          rcases List.mem_cons.mp hd with hd | hd
          · subst hd
            exact hlift j (hsub1 v rfl j hr)
          · exact hsub2 vs' rfl j ⟨d, hd, hr⟩

theorem evalF_clean_sub (g : Graph) (hwf : WF g) :
    ∀ (fuel i : Nat) (s : EState) res s' tr, i < g.size → Sized g s → CleanDown g s →
      evalF g fuel i s = (res, s', tr) →
      (∀ k ∈ tr, ∀ j, Reaches g k j → s'.isClean j = true) ∧
      (∀ v, res = .ok v → ∀ j, Reaches g i j → s'.isClean j = true) := by
  intro fuel
  induction fuel with
  | zero =>
    intro i s res s' tr _ _ _ h
    rw [evalF] at h
    cases h
    exact ⟨fun k hk => absurd hk (by simp), fun v hv => by cases hv⟩
  | succ fuel ih =>
    intro i s res s' tr hi hs hcd h
    rw [evalF] at h
    split at h
    · rename_i hclean
      cases h
      refine ⟨fun k hk => absurd hk (by simp), ?_⟩
      intro v hv j hj
      exact cleanDown_clean_down g s hcd hj hclean
    · rename_i hdirty
      rw [Bool.not_eq_true] at hdirty
      split at h
      · rename_i hkind
        cases h
        have hchild : g.childrenOf i = [] := by
          refine hwf.2.1 i hi ?_
          rw [Graph.isArg, hkind]
        have hselfclean : ({ s with clean := s.clean.set i true } : EState).isClean i = true := by
          show (s.clean.set i true).getD i false = true
          exact getD_set_self_of_lt _ _ _ _ (by rw [hs.2]; exact hi)
        refine ⟨?_, ?_⟩
        · intro k hk j hj
          simp only [List.mem_singleton] at hk
          subst hk
          rw [reaches_childless g hj hchild]
          exact hselfclean
        · intro v hv j hj
          rw [reaches_childless g hj hchild]
          exact hselfclean
      · rename_i fn hkind
        rcases hLW : evalListWith (evalF g fuel) (g.childrenOf i) s with ⟨lres, s₁, tr₁⟩
        rw [hLW] at h
        have hbound : ∀ c ∈ g.childrenOf i, c < g.size :=
          fun c hc => lt_trans (hwf.1 i hi c hc) hi
        obtain ⟨hso1, hsz1⟩ := evalListWith_stateOK g _ (evalF_stateOK g hwf fuel)
          _ s lres s₁ tr₁ hbound hs hLW
        obtain ⟨hsubtr1, hsub1⟩ := evalListWith_clean_sub g hwf fuel ih _ s lres s₁ tr₁
          hbound hs hcd hLW
        cases lres with
        | error e =>
          cases h
          exact ⟨hsubtr1, fun v hv => by cases hv⟩
        | ok vs =>
          dsimp only at h
          cases hfn : fn vs with
          | error err =>
            rw [hfn] at h
            dsimp only at h
            cases h
            exact ⟨hsubtr1, fun v hv => by cases hv⟩
          | ok v =>
            rw [hfn] at h
            dsimp only at h
            cases h
            have hselfclean : (s₁.writeCache i v).isClean i = true :=
              writeCache_isClean_self s₁ i v (by rw [hsz1.2]; exact hi)
            have hlift : ∀ j, s₁.isClean j = true → (s₁.writeCache i v).isClean j = true := by
              intro j hj
              by_cases hji : j = i
              · rw [hji]; exact hselfclean
              · rw [writeCache_isClean_ne s₁ v hji]; exact hj
            have hsuball : ∀ j, Reaches g i j → (s₁.writeCache i v).isClean j = true := by
              intro j hj
              cases hj with
              | refl => exact hselfclean
              | step hc hr => exact hlift j (hsub1 vs rfl j ⟨_, hc, hr⟩)
            refine ⟨?_, fun w hw => by cases hw; exact hsuball⟩
            intro k hk j hj
            rcases List.mem_append.mp hk with hk | hk
            · exact hlift j (hsubtr1 k hk j hj)
            · simp only [List.mem_singleton] at hk
              subst hk
              exact hsuball j hj

theorem denoteListWith_congr (f₁ f₂ : Nat → Except EvalErr Val) :
    ∀ (cs : List Nat), (∀ c ∈ cs, f₁ c = f₂ c) →
      denoteListWith f₁ cs = denoteListWith f₂ cs := by
  intro cs
  induction cs with
  | nil => intro _; rfl
  | cons c cs ih =>
    intro h
    rw [denoteListWith, denoteListWith, h c (by simp), ih (fun d hd => h d (by simp [hd]))]

/-- `denote` is local: it only reads the stored values of the Arguments in
the subtree below the node. -/
theorem denoteF_local (g : Graph) :
    ∀ (fuel i : Nat) (s₁ s₂ : EState),
      (∀ d, Reaches g i d → g.isArg d = true → s₁.val d = s₂.val d) →
      denoteF g fuel i s₁ = denoteF g fuel i s₂ := by
  intro fuel
  induction fuel with
  | zero => intro i s₁ s₂ _; rfl
  | succ fuel ih =>
    intro i s₁ s₂ hagree
    rw [denoteF, denoteF]
    cases hkind : (g.node i).kind with
    | arg =>
      have : s₁.val i = s₂.val i := by
        refine hagree i (.refl i) ?_
        rw [Graph.isArg, hkind]
      rw [this]
    | op fn =>
      have hlist : denoteListWith (fun c => denoteF g fuel c s₁) (g.childrenOf i) =
          denoteListWith (fun c => denoteF g fuel c s₂) (g.childrenOf i) := by
        refine denoteListWith_congr _ _ _ ?_
        intro c hc
        exact ih c s₁ s₂ (fun d hd harg => hagree d (.step hc hd) harg)
      rw [hlist]

/-- `denoteF` is independent of the fuel once it exceeds the node index
(children have smaller indices on a well-formed arena). -/
theorem denoteF_fuel (g : Graph) (hwf : WF g) :
    ∀ (i f₁ f₂ : Nat) (s : EState), i < f₁ → i < f₂ →
      denoteF g f₁ i s = denoteF g f₂ i s := by
  intro i
  induction i using Nat.strong_induction_on with
  | _ i ihi =>
    intro f₁ f₂ s h₁ h₂
    match f₁, h₁, f₂, h₂ with
    | a + 1, h₁, b + 1, h₂ =>
      rw [denoteF, denoteF]
      cases hkind : (g.node i).kind with
      | arg => rfl
      | op fn =>
        have hib : i < g.size := node_op_lt_size g hkind
        have hlist : denoteListWith (fun c => denoteF g a c s) (g.childrenOf i) =
            denoteListWith (fun c => denoteF g b c s) (g.childrenOf i) := by
          refine denoteListWith_congr _ _ _ ?_
          intro c hc
          have hci : c < i := hwf.1 i hib c hc
          exact ihi c hci a b s (by omega) (by omega)
        rw [hlist]

/-- On success the Evaluator returns exactly the from-scratch value, and
cache coherence is preserved by every (also failed) evaluation. -/
theorem evalListWith_correct (g : Graph) (hwf : WF g) (fuel : Nat)
    (IH : ∀ (i : Nat) (s : EState) res s' tr, i < fuel → i < g.size → Sized g s →
      CleanDown g s → Coherent g s → evalF g fuel i s = (res, s', tr) →
      (∀ v, res = .ok v → denoteF g fuel i s = .ok v) ∧ Coherent g s') :
    ∀ (cs : List Nat) (s : EState) res s' tr, (∀ c ∈ cs, c < fuel ∧ c < g.size) →
      Sized g s → CleanDown g s → Coherent g s →
      evalListWith (evalF g fuel) cs s = (res, s', tr) →
      (∀ vs, res = .ok vs →
        denoteListWith (fun c => denoteF g fuel c s) cs = .ok vs) ∧ Coherent g s' := by
  intro cs
  induction cs with
  | nil =>
    intro s res s' tr _ hs hcd hco h
    rw [evalListWith] at h
    cases h
    exact ⟨fun vs hvs => by cases hvs; rfl, hco⟩
  | cons c cs ih =>
    intro s res s' tr hcs hs hcd hco h
    rw [evalListWith] at h
    rcases hfc : evalF g fuel c s with ⟨rc, s₁, tr₁⟩
    rw [hfc] at h
    obtain ⟨hcf, hcsz⟩ := hcs c (by simp)
    obtain ⟨hso1, hsz1⟩ := evalF_stateOK g hwf fuel c s rc s₁ tr₁ hcsz hs hfc
    obtain ⟨hcd1, _⟩ := evalF_clean g hwf fuel c s rc s₁ tr₁ hcsz hs hcd hfc
    obtain ⟨hval1, hco1⟩ := IH c s rc s₁ tr₁ hcf hcsz hs hcd hco hfc
    cases rc with
    | error e =>
      cases h
      exact ⟨fun vs hvs => (nomatch hvs), hco1⟩
    | ok v =>
      dsimp only at h
      rcases hrest : evalListWith (evalF g fuel) cs s₁ with ⟨rr, s₂, tr₂⟩
      rw [hrest] at h
      obtain ⟨hrest_ok, hco2⟩ := ih s₁ rr s₂ tr₂ (fun d hd => hcs d (by simp [hd]))
        hsz1 hcd1 hco1 hrest
      have hdenote_shift : ∀ (f d : Nat), denoteF g f d s₁ = denoteF g f d s :=
        fun f d => denoteF_local g f d s₁ s (fun e _ harg => hso1.2.2.2.2.2 e harg)
      cases rr with
      | error e =>
        cases h
        exact ⟨fun vs hvs => (nomatch hvs), hco2⟩
      | ok vs' =>
        cases h
        refine ⟨?_, hco2⟩
        intro vs hvs
        cases hvs
        rw [denoteListWith]
        rw [hval1 v rfl]
        have : denoteListWith (fun d => denoteF g fuel d s) cs = .ok vs' := by
          rw [← denoteListWith_congr _ _ cs (fun d _ => hdenote_shift fuel d)]
          exact hrest_ok vs' rfl
        rw [this]

theorem evalF_correct (g : Graph) (hwf : WF g) :
    ∀ (fuel i : Nat) (s : EState) res s' tr, i < fuel → i < g.size → Sized g s →
      CleanDown g s → Coherent g s → evalF g fuel i s = (res, s', tr) →
      (∀ v, res = .ok v → denoteF g fuel i s = .ok v) ∧ Coherent g s' := by
  intro fuel
  induction fuel with
  | zero =>
    intro i s res s' tr hif _ _ _ _ _
    omega
  | succ fuel ih =>
    intro i s res s' tr hif hi hs hcd hco h
    rw [evalF] at h
    split at h
    · rename_i hclean
      cases h
      refine ⟨?_, hco⟩
      intro v hv
      cases hv
      have hcoi := hco i hi hclean
      rw [denote] at hcoi
      rw [denoteF_fuel g hwf i (fuel + 1) (i + 1) s (by omega) (by omega)]
      exact hcoi
    · rename_i hdirty
      rw [Bool.not_eq_true] at hdirty
      split at h
      · rename_i hkind
        cases h
        have hvals : ∀ j, ({ s with clean := s.clean.set i true } : EState).val j = s.val j :=
          fun j => rfl
        have hdenote_eq : ∀ (f j : Nat),
            denoteF g f j ({ s with clean := s.clean.set i true } : EState) = denoteF g f j s :=
          fun f j => denoteF_local g f j _ s (fun d _ _ => hvals d)
        refine ⟨?_, ?_⟩
        · intro v hv
          cases hv
          rw [denoteF, hkind]
        · intro j hj hcl
          by_cases hji : j = i
          · rw [hji] at hcl ⊢
            rw [denote, hdenote_eq, hvals, denoteF, hkind]
          · have hcl' : s.isClean j = true := by
              show s.clean.getD j false = true
              have : (s.clean.set i true).getD j false = true := hcl
              rwa [getD_set_ne _ _ _ _ _ hji] at this
            have := hco j hj hcl'
            rw [denote] at this ⊢
            rw [hdenote_eq, hvals]
            exact this
      · rename_i fn hkind
        rcases hLW : evalListWith (evalF g fuel) (g.childrenOf i) s with ⟨lres, s₁, tr₁⟩
        rw [hLW] at h
        have hbound : ∀ c ∈ g.childrenOf i, c < fuel ∧ c < g.size := by
          intro c hc
          have := hwf.1 i hi c hc
          exact ⟨by omega, by omega⟩
        obtain ⟨hso1, hsz1⟩ := evalListWith_stateOK g _ (evalF_stateOK g hwf fuel)
          _ s lres s₁ tr₁ (fun c hc => (hbound c hc).2) hs hLW
        obtain ⟨hlist_ok, hco1⟩ := evalListWith_correct g hwf fuel ih _ s lres s₁ tr₁
          hbound hs hcd hco hLW
        cases lres with
        | error e =>
          cases h
          exact ⟨fun v hv => (nomatch hv), hco1⟩
        | ok vs =>
          dsimp only at h
          cases hfn : fn vs with
          | error err =>
            rw [hfn] at h
            dsimp only at h
            cases h
            exact ⟨fun v hv => (nomatch hv), hco1⟩
          | ok v =>
            rw [hfn] at h
            dsimp only at h
            cases h
            have hargne : ∀ d, g.isArg d = true → d ≠ i := by
              intro d harg hdi
              rw [hdi, Graph.isArg, hkind] at harg
              cases harg
            have hvals₂ : ∀ d, g.isArg d = true → (s₁.writeCache i v).val d = s₁.val d :=
              fun d harg => writeCache_val_ne s₁ v (hargne d harg)
            have hdenote₂ : ∀ (f j : Nat), denoteF g f j (s₁.writeCache i v) = denoteF g f j s₁ :=
              fun f j => denoteF_local g f j _ s₁ (fun d _ harg => hvals₂ d harg)
            have hdenote₁ : ∀ (f j : Nat), denoteF g f j s₁ = denoteF g f j s :=
              fun f j => denoteF_local g f j s₁ s (fun d _ harg => hso1.2.2.2.2.2 d harg)
            have hdval : denoteF g (fuel + 1) i s = .ok v := by
              rw [denoteF, hkind]
              dsimp only
              rw [hlist_ok vs rfl]
              dsimp only
              rw [hfn]
            refine ⟨?_, ?_⟩
            · intro w hw
              cases hw
              exact hdval
            intro j hj hcl
            by_cases hji : j = i
            · rw [hji] at hcl ⊢
              rw [denote, hdenote₂, hdenote₁]
              rw [denoteF_fuel g hwf i (i + 1) (fuel + 1) s (by omega) (by omega)]
              rw [hdval]
              have : (s₁.writeCache i v).val i = v :=
                writeCache_val_self s₁ i v (by rw [hsz1.1]; exact hi)
              rw [this]
            · have hcl' : s₁.isClean j = true := by
                rwa [writeCache_isClean_ne s₁ v hji] at hcl
              have := hco1 j hj hcl'
              rw [denote] at this ⊢
              rw [hdenote₂, writeCache_val_ne s₁ v hji]
              exact this

/-- Completeness of the recomputation trace: a successful pass recomputes
every initially dirty node reachable from the target. -/
theorem evalListWith_complete (g : Graph) (hwf : WF g) (fuel : Nat)
    (IH : ∀ (i : Nat) (s : EState) v s' tr, i < g.size → Sized g s → CleanDown g s →
      evalF g fuel i s = (.ok v, s', tr) →
      ∀ j, Reaches g i j → s.isClean j = false → j ∈ tr) :
    ∀ (cs : List Nat) (s : EState) vs s' tr, (∀ c ∈ cs, c < g.size) → Sized g s →
      CleanDown g s → evalListWith (evalF g fuel) cs s = (.ok vs, s', tr) →
      ∀ j, (∃ c ∈ cs, Reaches g c j) → s.isClean j = false → j ∈ tr := by
  intro cs
  induction cs with
  | nil =>
    intro s vs s' tr _ _ _ h j hj _
    obtain ⟨c, hc, _⟩ := hj
    cases hc
  | cons c cs ih =>
    intro s vs s' tr hcs hs hcd h j hj hdj
    rw [evalListWith] at h
    rcases hfc : evalF g fuel c s with ⟨rc, s₁, tr₁⟩
    rw [hfc] at h
    have hc0 : c < g.size := hcs c (by simp)
    obtain ⟨hso1, hsz1⟩ := evalF_stateOK g hwf fuel c s rc s₁ tr₁ hc0 hs hfc
    obtain ⟨hcd1, _⟩ := evalF_clean g hwf fuel c s rc s₁ tr₁ hc0 hs hcd hfc
    cases rc with
    | error e => cases h
    | ok v =>
      dsimp only at h
      rcases hrest : evalListWith (evalF g fuel) cs s₁ with ⟨rr, s₂, tr₂⟩
      rw [hrest] at h
      cases rr with
      | error e => cases h
      | ok vs' =>
        cases h
        rw [List.mem_append]
        obtain ⟨d, hd, hr⟩ := hj
        rcases List.mem_cons.mp hd with hd | hd
        · subst hd
          exact Or.inl (IH d s v s₁ tr₁ hc0 hs hcd hfc j hr hdj)
        · by_cases hj1 : j ∈ tr₁
          · exact Or.inl hj1
          · refine Or.inr (ih _ _ _ _ (fun e he => hcs e (by simp [he]))
              hsz1 hcd1 hrest j ⟨d, hd, hr⟩ ?_)
            rw [(hso1.2.2.1 j hj1).1]
            exact hdj

theorem evalF_complete (g : Graph) (hwf : WF g) :
    ∀ (fuel i : Nat) (s : EState) v s' tr, i < g.size → Sized g s → CleanDown g s →
      evalF g fuel i s = (.ok v, s', tr) →
      ∀ j, Reaches g i j → s.isClean j = false → j ∈ tr := by
  intro fuel
  induction fuel with
  | zero =>
    intro i s v s' tr _ _ _ h
    rw [evalF] at h
    cases h
  | succ fuel ih =>
    intro i s v s' tr hi hs hcd h j hj hdj
    rw [evalF] at h
    split at h
    · rename_i hclean
      exfalso
      have := cleanDown_clean_down g s hcd hj hclean
      rw [this] at hdj
      cases hdj
    · rename_i hdirty
      rw [Bool.not_eq_true] at hdirty
      split at h
      · rename_i hkind
        cases h
        have hchild : g.childrenOf i = [] := by
          refine hwf.2.1 i hi ?_
          rw [Graph.isArg, hkind]
        rw [reaches_childless g hj hchild]
        simp
      · rename_i fn hkind
        rcases hLW : evalListWith (evalF g fuel) (g.childrenOf i) s with ⟨lres, s₁, tr₁⟩
        rw [hLW] at h
        have hbound : ∀ c ∈ g.childrenOf i, c < g.size :=
          fun c hc => lt_trans (hwf.1 i hi c hc) hi
        cases lres with
        | error e => cases h
        | ok vs =>
          dsimp only at h
          cases hfn : fn vs with
          | error err =>
            rw [hfn] at h
            dsimp only at h
            cases h
          | ok w =>
            rw [hfn] at h
            dsimp only at h
            cases h
            rw [List.mem_append]
            cases hj with
            | refl => exact Or.inr (by simp)
            | step hc hr =>
              exact Or.inl (evalListWith_complete g hwf fuel ih _ s vs s₁ tr₁
                hbound hs hcd hLW j ⟨_, hc, hr⟩ hdj)

/-- Error characterisation: a propagated `EvaluationError` names a node
that was dirty before the pass and that the pass did not recompute. -/
theorem evalListWith_error (g : Graph) (hwf : WF g) (fuel : Nat)
    (IH : ∀ (i : Nat) (s : EState) nm s' tr, i < g.size → Sized g s → CleanDown g s →
      evalF g fuel i s = (.error (.evaluationError nm), s', tr) →
      ∃ fl, fl < g.size ∧ nm = (g.node fl).name ∧ s.isClean fl = false ∧
        fl ∉ tr ∧ Reaches g i fl) :
    ∀ (cs : List Nat) (s : EState) nm s' tr, (∀ c ∈ cs, c < g.size) → Sized g s →
      CleanDown g s → evalListWith (evalF g fuel) cs s = (.error (.evaluationError nm), s', tr) →
      ∃ fl, fl < g.size ∧ nm = (g.node fl).name ∧ s.isClean fl = false ∧
        fl ∉ tr ∧ ∃ c ∈ cs, Reaches g c fl := by
  intro cs
  induction cs with
  | nil =>
    intro s nm s' tr _ _ _ h
    rw [evalListWith] at h
    cases h
  | cons c cs ih =>
    intro s nm s' tr hcs hs hcd h
    rw [evalListWith] at h
    rcases hfc : evalF g fuel c s with ⟨rc, s₁, tr₁⟩
    rw [hfc] at h
    have hc0 : c < g.size := hcs c (by simp)
    obtain ⟨hso1, hsz1⟩ := evalF_stateOK g hwf fuel c s rc s₁ tr₁ hc0 hs hfc
    obtain ⟨hcd1, _⟩ := evalF_clean g hwf fuel c s rc s₁ tr₁ hc0 hs hcd hfc
    cases rc with
    | error e =>
      cases h
      obtain ⟨fl, hfl1, hfl2, hfl3, hfl4, hfl5⟩ := IH c s nm _ _ hc0 hs hcd hfc
      exact ⟨fl, hfl1, hfl2, hfl3, hfl4, c, by simp, hfl5⟩
    | ok v =>
      dsimp only at h
      rcases hrest : evalListWith (evalF g fuel) cs s₁ with ⟨rr, s₂, tr₂⟩
      rw [hrest] at h
      cases rr with
      | error e =>
        cases h
        obtain ⟨fl, hfl1, hfl2, hfl3, hfl4, hfl5⟩ := ih _ nm _ _
          (fun d hd => hcs d (by simp [hd])) hsz1 hcd1 hrest
        have hfl_tr1 : fl ∉ tr₁ := by
          intro hmem
          have := (hso1.2.2.2.1 fl hmem).2
          rw [this] at hfl3
          cases hfl3
        refine ⟨fl, hfl1, hfl2, ?_, ?_, ?_⟩
        · rw [← (hso1.2.2.1 fl hfl_tr1).1]
          exact hfl3
        · rw [List.mem_append]
          push_neg
          exact ⟨hfl_tr1, hfl4⟩
        · obtain ⟨d, hd, hr⟩ := hfl5
          exact ⟨d, by simp [hd], hr⟩
      | ok vs' => cases h

theorem evalF_error (g : Graph) (hwf : WF g) :
    ∀ (fuel i : Nat) (s : EState) nm s' tr, i < g.size → Sized g s → CleanDown g s →
      evalF g fuel i s = (.error (.evaluationError nm), s', tr) →
      ∃ fl, fl < g.size ∧ nm = (g.node fl).name ∧ s.isClean fl = false ∧
        fl ∉ tr ∧ Reaches g i fl := by
  intro fuel
  induction fuel with
  | zero =>
    intro i s nm s' tr _ _ _ h
    rw [evalF] at h
    cases h
  | succ fuel ih =>
    intro i s nm s' tr hi hs hcd h
    rw [evalF] at h
    split at h
    · cases h
    · rename_i hdirty
      rw [Bool.not_eq_true] at hdirty
      split at h
      · cases h
      · rename_i fn hkind
        rcases hLW : evalListWith (evalF g fuel) (g.childrenOf i) s with ⟨lres, s₁, tr₁⟩
        rw [hLW] at h
        have hbound : ∀ c ∈ g.childrenOf i, c < g.size :=
          fun c hc => lt_trans (hwf.1 i hi c hc) hi
        cases lres with
        | error e =>
          cases h
          obtain ⟨fl, hfl1, hfl2, hfl3, hfl4, c, hc, hr⟩ :=
            evalListWith_error g hwf fuel ih _ s nm _ _ hbound hs hcd hLW
          exact ⟨fl, hfl1, hfl2, hfl3, hfl4, .step hc hr⟩
        | ok vs =>
          dsimp only at h
          cases hfn : fn vs with
          | error err =>
            rw [hfn] at h
            dsimp only at h
            cases h
            refine ⟨i, hi, rfl, hdirty, ?_, .refl i⟩
            intro hmem
            obtain ⟨c, hc, hr⟩ := evalListWith_trace_reach g _
              (evalF_trace_reach g fuel) _ _ _ _ _ hLW i hmem
            have h1 := reaches_le g hwf hr
            have h2 := hwf.1 i hi c hc
            omega
          | ok v =>
            rw [hfn] at h
            dsimp only at h
            cases h

mutual
theorem fuE_none (fac : Factory) : (e : Expr) → firstUnknownE fac e = none →
    ∀ f ∈ callNamesE e, lookupStr fac.ops f ≠ none
  | .num _, _, f, hf => by cases hf
  | .var _, _, f, hf => by cases hf
  | .neg e, h, f, hf => fuE_none fac e h f hf
  | .bin o a b, h, f, hf => by
    rw [firstUnknownE] at h
    rw [callNamesE] at hf
    cases hfa : firstUnknownE fac a with
    | some gg =>
      rw [hfa] at h
      dsimp only at h
      exact nomatch h
    | none =>
      rw [hfa] at h
      dsimp only at h
      rcases List.mem_append.mp hf with hf | hf
      · exact fuE_none fac a hfa f hf
      · exact fuE_none fac b h f hf
  | .call fname args, h, f, hf => by
    rw [firstUnknownE] at h
    rw [callNamesE] at hf
    cases hlk : lookupStr fac.ops fname with
    | none =>
      rw [hlk] at h
      dsimp only at h
      exact nomatch h
    | some spec =>
      rw [hlk] at h
      dsimp only at h
      rcases List.mem_cons.mp hf with hf | hf
      · rw [hf, hlk]
        intro hcontra
        cases hcontra
      · exact fuL_none fac args h f hf
theorem fuL_none (fac : Factory) : (l : ExprList) → firstUnknownL fac l = none →
    ∀ f ∈ callNamesL l, lookupStr fac.ops f ≠ none
  | .nil, _, f, hf => by cases hf
  | .cons e tl, h, f, hf => by
    rw [firstUnknownL] at h
    rw [callNamesL] at hf
    cases hfe : firstUnknownE fac e with
    | some gg =>
      rw [hfe] at h
      dsimp only at h
      exact nomatch h
    | none =>
      rw [hfe] at h
      dsimp only at h
      rcases List.mem_append.mp hf with hf | hf
      · exact fuE_none fac e hfe f hf
      · exact fuL_none fac tl h f hf
end

mutual
theorem fuE_some (fac : Factory) : (e : Expr) → (gname : String) →
    firstUnknownE fac e = some gname → lookupStr fac.ops gname = none
  | .num _, gname, h => by rw [firstUnknownE] at h; exact nomatch h
  | .var _, gname, h => by rw [firstUnknownE] at h; exact nomatch h
  | .neg e, gname, h => fuE_some fac e gname h
  | .bin o a b, gname, h => by
    rw [firstUnknownE] at h
    cases hfa : firstUnknownE fac a with
    | some gg =>
      rw [hfa] at h
      dsimp only at h
      cases h
      exact fuE_some fac a gname hfa
    | none =>
      rw [hfa] at h
      dsimp only at h
      exact fuE_some fac b gname h
  | .call fname args, gname, h => by
    rw [firstUnknownE] at h
    cases hlk : lookupStr fac.ops fname with
    | none =>
      rw [hlk] at h
      dsimp only at h
      cases h
      exact hlk
    | some spec =>
      rw [hlk] at h
      dsimp only at h
      exact fuL_some fac args gname h
theorem fuL_some (fac : Factory) : (l : ExprList) → (gname : String) →
    firstUnknownL fac l = some gname → lookupStr fac.ops gname = none
  | .nil, gname, h => by rw [firstUnknownL] at h; exact nomatch h
  | .cons e tl, gname, h => by
    rw [firstUnknownL] at h
    cases hfe : firstUnknownE fac e with
    | some gg =>
      rw [hfe] at h
      dsimp only at h
      cases h
      exact fuE_some fac e gname hfe
    | none =>
      rw [hfe] at h
      dsimp only at h
      exact fuL_some fac tl gname h
end

/-! #### The claims about the equation engine -/
/-- C1: in a DAG where Argument `a` is reachable from the root by two or
more distinct ancestor paths, `setValue` on `a` followed by one evaluation
call recomputes each of `a`'s ancestors reachable from the root exactly
once (the trace is duplicate-free and counts each such ancestor once), and
the root value equals a from-scratch recomputation of the whole tree. -/
theorem sharing_correctness (g : Graph) (s : EState) (r a : Nat) (v w : Val)
    (s₂ : EState) (tr : List Nat)
    (hwf : WF g) (hsz : Sized g s) (hcd : CleanDown g s) (hco : Coherent g s)
    (hr : r < g.size)
    (_hpaths : ∃ p q : List Nat, IsPath g r p a ∧ IsPath g r q a ∧ p ≠ q)
    (heval : evaluate g r (setValue g a v s).1 = (.ok w, s₂, tr)) :
    tr.Nodup ∧
    (∀ j, ObsReach g a j → Reaches g r j → tr.count j = 1) ∧
    denote g r (setValue g a v s).1 = .ok w := by
  obtain ⟨hval, hlen, hchar, hndm, hmem, hcd₁⟩ := setValue_spec g s a v hwf hcd
  set s₁ : EState := (setValue g a v s).1 with hs₁
  have hsz₁ : Sized g s₁ := by
    constructor
    · rw [hval, List.length_set]
      exact hsz.1
    · rw [hlen]
      exact hsz.2
  have hco₁ : Coherent g s₁ := by
    intro j hj hcl
    have hnd : ¬ (s.isClean j = false ∨ j = a ∨ ObsReach g a j) := by
      intro hcase
      have := (hchar j).mpr hcase
      rw [hcl] at this
      cases this
    push_neg at hnd
    obtain ⟨hclean_s, hne_a, hnreach⟩ := hnd
    simp only [ne_eq, Bool.not_eq_false] at hclean_s
    have hvj : s₁.val j = s.val j := by
      show s₁.value.getD j 0 = s.value.getD j 0
      rw [hval]
      exact getD_set_ne _ _ _ _ _ hne_a
    have hdj : denote g j s₁ = denote g j s := by
      refine denoteF_local g _ j s₁ s ?_
      intro d hder _
      show s₁.value.getD d 0 = s.value.getD d 0
      rw [hval]
      refine getD_set_ne _ _ _ _ _ ?_
      intro hda
      rw [hda] at hder
      exact hnreach (reaches_to_obsReach g hwf hder hne_a)
    rw [hdj, hvj]
    exact hco j hj hclean_s
  obtain ⟨hcorrect, _⟩ := evalF_correct g hwf (r + 1) r s₁ (.ok w) s₂ tr
    (by omega) hr hsz₁ hcd₁ hco₁ heval
  obtain ⟨hso, _⟩ := evalF_stateOK g hwf (r + 1) r s₁ (.ok w) s₂ tr hr hsz₁ heval
  refine ⟨hso.2.2.2.2.1, ?_, hcorrect w rfl⟩
  intro j hanc hreach
  have hdirty₁ : s₁.isClean j = false := (hchar j).mpr (Or.inr (Or.inr hanc))
  have hjmem : j ∈ tr :=
    evalF_complete g hwf (r + 1) r s₁ w s₂ tr hr hsz₁ hcd₁ heval j hreach hdirty₁
  exact List.count_eq_one_of_mem hso.2.2.2.2.1 hjmem

/-- C1 witness: the diamond `dg` (two paths from root 3 to Argument 0);
after `setValue 0 5` one evaluation recomputes each of the three ancestor
Operators exactly once and returns the from-scratch value 10. -/
theorem sharing_correctness_witness :
    [0, 1, 2, 3].Nodup ∧
    (∀ j, ObsReach dg 0 j → Reaches dg 3 j → [0, 1, 2, 3].count j = 1) ∧
    denote dg 3 (setValue dg 0 5 dsClean).1 = .ok 10 :=
  sharing_correctness dg dsClean 3 0 5 10 ⟨[5, 5, 5, 10], [true, true, true, true]⟩
    [0, 1, 2, 3] (by decide) (by decide) (by decide) (by decide) (by decide)
    ⟨[3, 1, 0], [3, 2, 0], by decide, by decide, by decide⟩ rfl

/-- C2: `markDirty` on an already-dirty node is a no-op with no
re-propagation; setting an Argument's value replaces exactly its stored
value and, without evaluating anything, marks dirty exactly the argument
and its (transitively) observing ancestors, each previously-clean one
being invalidated exactly once even through shared sub-trees. -/
theorem setValue_propagation :
    (∀ (g : Graph) (i : Nat) (s : EState), s.isClean i = false →
      markDirty g [i] s = (s, [])) ∧
    (∀ (g : Graph) (a : Nat) (v : Val) (s : EState), WF g → CleanDown g s →
      (setValue g a v s).1.value = s.value.set a v ∧
      (∀ j, (setValue g a v s).1.isClean j = false ↔
        (s.isClean j = false ∨ j = a ∨ ObsReach g a j)) ∧
      (setValue g a v s).2.Nodup ∧
      (∀ j, j ∈ (setValue g a v s).2 ↔
        (s.isClean j = true ∧ (j = a ∨ ObsReach g a j)))) := by
  refine ⟨markDirty_dirty_noop, ?_⟩
  intro g a v s hwf hcd
  obtain ⟨h1, _, h3, h4, h5, _⟩ := setValue_spec g s a v hwf hcd
  exact ⟨h1, h3, h4, h5⟩

/-- C2 witness: on the diamond, marking the already-dirty Argument is a
no-op, and `setValue 0 7` from the all-clean state dirties the shared
ancestor 3 and records it in the invalidation trace. -/
theorem setValue_propagation_witness :
    markDirty dg [0] dsDirty = (dsDirty, []) ∧
    (setValue dg 0 7 dsClean).1.isClean 3 = false ∧
    3 ∈ (setValue dg 0 7 dsClean).2 := by
  have hreach : ObsReach dg 0 3 :=
    .step (by decide : (1 : Nat) ∈ dg.obsOf 0) (.base (by decide : (3 : Nat) ∈ dg.obsOf 1))
  refine ⟨setValue_propagation.1 dg 0 dsDirty (by decide), ?_, ?_⟩
  · exact ((setValue_propagation.2 dg 0 7 dsClean (by decide) (by decide)).2.1 3).mpr
      (Or.inr (Or.inr hreach))
  · exact ((setValue_propagation.2 dg 0 7 dsClean (by decide) (by decide)).2.2.2 3).mpr
      ⟨by decide, Or.inr hreach⟩

/-- C3: when a combining function raises a domain error, the evaluation
call propagates an `EvaluationError` carrying the failing node's name;
the failing node was dirty and stays dirty, every ancestor of the failing
node was dirty, stays dirty and was not recomputed, and every node the
pass did not recompute keeps exactly its previous flag and value — the
only state changes are the sub-computations completed before the failure
was reached. -/
theorem evaluation_error_state (g : Graph) (s : EState) (r : Nat) (nm : String)
    (s' : EState) (tr : List Nat)
    (hwf : WF g) (hsz : Sized g s) (hcd : CleanDown g s) (hr : r < g.size)
    (heval : evaluate g r s = (.error (.evaluationError nm), s', tr)) :
    ∃ fl, fl < g.size ∧ nm = (g.node fl).name ∧
      s.isClean fl = false ∧ s'.isClean fl = false ∧ fl ∉ tr ∧
      (∀ j, ObsReach g fl j → s.isClean j = false ∧ s'.isClean j = false ∧ j ∉ tr) ∧
      (∀ j, j ∉ tr → s'.isClean j = s.isClean j ∧ s'.val j = s.val j) := by
  obtain ⟨fl, hfl_lt, hfl_nm, hfl_dirty, hfl_tr, _⟩ :=
    evalF_error g hwf (r + 1) r s nm s' tr hr hsz hcd heval
  obtain ⟨hso, _⟩ := evalF_stateOK g hwf (r + 1) r s (.error (.evaluationError nm)) s' tr
    hr hsz heval
  obtain ⟨hsubtr, _⟩ := evalF_clean_sub g hwf (r + 1) r s (.error (.evaluationError nm)) s' tr
    hr hsz hcd heval
  have hfl_dirty' : s'.isClean fl = false := by
    rw [(hso.2.2.1 fl hfl_tr).1]
    exact hfl_dirty
  refine ⟨fl, hfl_lt, hfl_nm, hfl_dirty, hfl_dirty', hfl_tr, ?_, fun j hj => hso.2.2.1 j hj⟩
  intro j hanc
  have hdj : s.isClean j = false := cleanDown_dirty_up g s hwf hcd hanc hfl_dirty
  have hjtr : j ∉ tr := by
    intro hmem
    have hreach : Reaches g j fl := obsReach_to_reaches g hwf hanc
    have := hsubtr j hmem fl hreach
    rw [hfl_dirty'] at this
    cases this
  refine ⟨hdj, ?_, hjtr⟩
  rw [(hso.2.2.1 j hjtr).1]
  exact hdj

/-- C3 witness: evaluating `x / y` with `y = 0` fails with an
`EvaluationError` naming the `quotient` node, whose conclusion is obtained
by applying the error-state theorem at that concrete input. -/
theorem evaluation_error_state_witness :
    ∃ fl, fl < dgDiv.size ∧ "quotient" = (dgDiv.node fl).name ∧
      dsDiv.isClean fl = false ∧
      (⟨[1, 0, 0], [true, true, false]⟩ : EState).isClean fl = false ∧ fl ∉ [0, 1] ∧
      (∀ j, ObsReach dgDiv fl j → dsDiv.isClean j = false ∧
        (⟨[1, 0, 0], [true, true, false]⟩ : EState).isClean j = false ∧ j ∉ [0, 1]) ∧
      (∀ j, j ∉ [0, 1] →
        (⟨[1, 0, 0], [true, true, false]⟩ : EState).isClean j = dsDiv.isClean j ∧
        (⟨[1, 0, 0], [true, true, false]⟩ : EState).val j = dsDiv.val j) :=
  evaluation_error_state dgDiv dsDiv 2 "quotient" ⟨[1, 0, 0], [true, true, false]⟩ [0, 1]
    (by decide) (by decide) (by decide) (by decide) rfl

/-- C4: after one successful evaluation pass every node reachable from
the evaluated root is clean, and a second evaluation with no intervening
mutation changes nothing, performs zero recomputation (empty trace), and
returns the identical result. -/
theorem evaluation_idempotent (g : Graph) (s : EState) (r : Nat) (v : Val)
    (s₁ : EState) (tr : List Nat)
    (hwf : WF g) (hsz : Sized g s) (hcd : CleanDown g s) (hr : r < g.size)
    (heval : evaluate g r s = (.ok v, s₁, tr)) :
    (∀ j, Reaches g r j → s₁.isClean j = true) ∧
    evaluate g r s₁ = (.ok v, s₁, []) := by
  obtain ⟨_, hsub⟩ := evalF_clean_sub g hwf (r + 1) r s (.ok v) s₁ tr hr hsz hcd heval
  obtain ⟨_, hpost⟩ := evalF_clean g hwf (r + 1) r s (.ok v) s₁ tr hr hsz hcd heval
  obtain ⟨hclean_r, hval_r⟩ := hpost v rfl
  refine ⟨hsub v rfl, ?_⟩
  rw [evaluate, evalF, if_pos hclean_r, hval_r]

/-- C4 witness: evaluating the diamond from the all-dirty state cleans
every node and a second evaluation returns the same value with an empty
trace. -/
theorem evaluation_idempotent_witness :
    (∀ j, Reaches dg 3 j →
      (⟨[1, 1, 1, 2], [true, true, true, true]⟩ : EState).isClean j = true) ∧
    evaluate dg 3 ⟨[1, 1, 1, 2], [true, true, true, true]⟩ =
      (.ok 2, ⟨[1, 1, 1, 2], [true, true, true, true]⟩, []) :=
  evaluation_idempotent dg dsDirty 3 2 ⟨[1, 1, 1, 2], [true, true, true, true]⟩
    [0, 1, 2, 3] (by decide) (by decide) (by decide) (by decide) rfl

/-- C5: building an Equation from the text `"2*x + y"`, binding `x = 3`
and `y = 4` and evaluating yields 10; rebinding `x = 5` and re-evaluating
yields 14, recomputing exactly `x`, its multiplication ancestor and the
shared addition root (which is also `y`'s Operator ancestor), and not
recomputing `y`'s cached contribution (node 3 is not in the second
trace). -/
theorem equation_round_trip :
    eqC5.1 = 4 ∧
    eqC5.2.symtable = [("x", 1), ("y", 3)] ∧
    (eqC5.2.graph.node 4).name = "addition" ∧
    eqC5.2.graph.childrenOf 4 = [2, 3] ∧
    eqC5.2.graph.childrenOf 2 = [0, 1] ∧
    evC5a.1 = .ok 10 ∧
    evC5b.1 = .ok 14 ∧
    evC5b.2.2 = [1, 2, 4] ∧
    3 ∉ evC5b.2.2 ∧
    4 ∈ evC5b.2.2 := by
  refine ⟨rfl, rfl, rfl, rfl, rfl, rfl, rfl, rfl, by decide, by decide⟩

/-- C6: identifier resolution follows the fixed three-step policy and
never fails: a registered operator name binds to the operator; otherwise a
name in the factory's symbol table reuses that exact Argument node,
leaving the factory untouched (so equations built against a shared symbol
table share the Argument); otherwise a fresh unbound Argument with that
name is appended to the arena and registered. -/
theorem identifier_resolution :
    (∀ (fac : Factory) (s : String),
      (∀ spec, lookupStr fac.ops s = some spec →
        resolveIdentifier fac s = (.toOperator s, fac)) ∧
      (∀ k, lookupStr fac.ops s = none → lookupStr fac.symtable s = some k →
        resolveIdentifier fac s = (.toArgument k, fac)) ∧
      (lookupStr fac.ops s = none → lookupStr fac.symtable s = none →
        resolveIdentifier fac s =
          (.toArgument fac.graph.size,
            { graph := ⟨fac.graph.nodes ++ [⟨s, .arg, [], []⟩]⟩,
              st := ⟨fac.st.value ++ [0], fac.st.clean ++ [false]⟩,
              symtable := fac.symtable ++ [(s, fac.graph.size)],
              ops := fac.ops }))) ∧
    (lookupStr eqShare1.2.symtable "x" = some 0 ∧
     lookupStr eqShare2.2.symtable "x" = some 0 ∧
     (evalRoot (bindVar eqShare2.2 "x" 7) eqShare2.1).1 = .ok 14) := by
  constructor
  · intro fac s
    refine ⟨?_, ?_, ?_⟩
    · intro spec h1
      rw [resolveIdentifier, h1]
    · intro k h1 h2
      rw [resolveIdentifier, h1]
      dsimp only
      rw [h2]
    · intro h1 h2
      rw [resolveIdentifier, h1]
      dsimp only
      rw [h2]
      dsimp only
      rfl
  · exact ⟨rfl, rfl, rfl⟩

/-- C6 witness: in `eqShare1`'s factory the identifier `x` resolves to the
existing Argument node 0 with the factory unchanged. -/
theorem identifier_resolution_witness :
    resolveIdentifier eqShare1.2 "x" = (.toArgument 0, eqShare1.2) :=
  (identifier_resolution.1 eqShare1.2 "x").2.1 0 rfl rfl

/-- C7: an expression that parses and contains a function call on a name
not registered with the factory makes `makeEquation` fail with
`UnknownFunctionError` naming an unregistered function — the failure
arises while the expression is compiled, before any tree is built or
evaluated. -/
theorem unknown_function_parse_time (fac : Factory) (text : String) (ast : Expr)
    (hparse : parseText text = .ok ast)
    (hunk : ∃ f ∈ callNamesE ast, lookupStr fac.ops f = none) :
    ∃ gname, makeEquation fac text = .error (.unknownFunction gname) ∧
      lookupStr fac.ops gname = none := by
  cases hfu : firstUnknownE fac ast with
  | none =>
    exfalso
    obtain ⟨f, hfmem, hfnone⟩ := hunk
    exact fuE_none fac ast hfu f hfmem hfnone
  | some gname =>
    refine ⟨gname, ?_, fuE_some fac ast gname hfu⟩
    rw [makeEquation, hparse]
    dsimp only
    rw [hfu]

/-- C7 witness: `"foo(2)"` with an empty registry fails with
`UnknownFunctionError` at compile time. -/
theorem unknown_function_parse_time_witness :
    ∃ gname, makeEquation emptyFactory "foo(2)" = .error (.unknownFunction gname) ∧
      lookupStr emptyFactory.ops gname = none :=
  unknown_function_parse_time emptyFactory "foo(2)" (.call "foo" (.cons (.num 2) .nil))
    rfl ⟨"foo", by decide, rfl⟩

end Srfit
